import Mathlib

/-!
Verification development for the Catfish file-index engine
(`core/file_index.py`, `core/index_discovery.py`, `core/search_logic.py`).

Shallow embedding conventions:
* Python byte streams are `List Nat` with every byte `< 256`; `struct` fields
  are decoded little-endian, signed fields through two's complement.
* Python strings are modelled by their Latin-1 byte lists (`Str`); `_read_string`
  reads bytes up to a NUL or end of input and never fails, matching the source.
* `pathlib` paths are modelled as lists of components (`List Str`); joining a
  component splits it on `/` and an absolute component resets the path,
  mirroring `PurePosixPath` (the claims never exercise Windows-flavoured paths,
  which only influence the parsing of the stored root string).
* The filesystem is a finite association list from paths to nodes; the content
  hash (`hashlib`, external to the repository) is modelled as an injective
  total function of the file content that never returns the empty string.
* `struct.pack('<d', ...)`/`unpack('<d', ...)` (IEEE-754 doubles) are abstracted:
  every definition that needs the numeric value of a double takes an explicit
  `List Nat → Int` conversion argument, and encoding takes an `Int → List Nat`
  argument; theorems quantify over these, so nothing depends on float semantics.
-/

namespace Catfish

/-- Latin-1 byte string. -/
abbrev Str := List Nat

/-- Little-endian value of a byte list. -/
def leVal (bs : List Nat) : Nat := bs.foldr (fun b acc => b + 256 * acc) 0

/-- Little-endian byte list of width `n` for value `v` (already reduced mod 2^(8n)). -/
def toLE : Nat → Nat → List Nat
  | 0, _ => []
  | n + 1, v => (v % 256) :: toLE n (v / 256)

/-- Two's-complement reading of an `n`-byte unsigned value. -/
def toSigned (n : Nat) (v : Nat) : Int :=
  if v < 2 ^ (8 * n - 1) then (v : Int) else (v : Int) - (2 ^ (8 * n) : Nat)

/-- struct.pack of an unsigned little-endian field of `n` bytes. -/
def wU (n : Nat) (v : Nat) : List Nat := toLE n (v % 2 ^ (8 * n))

/-- struct.pack of a signed little-endian field of `n` bytes (two's complement). -/
def wI (n : Nat) (v : Int) : List Nat := toLE n ((v % ((2 ^ (8 * n) : Nat) : Int)).toNat)

/-- Parser over a byte stream: `none` models a raised `struct.error`. -/
def ParseM (α : Type) : Type := List Nat → Option (α × List Nat)

instance : Monad ParseM where
  pure a := fun s => some (a, s)
  bind m f := fun s =>
    match m s with
    | none => none
    | some (a, s') => f a s'

/-- Failing parse (`struct.error`). -/
def pfail {α : Type} : ParseM α := fun _ => none

/-- Validation step: fail unless the proposition holds. -/
def pguard (p : Prop) [Decidable p] : ParseM Unit :=
  fun s => if p then some ((), s) else none

/-- Read exactly `n` bytes; a short read fails, like `struct.unpack` on `buffer.read(n)`. -/
def readBytes (n : Nat) : ParseM (List Nat) :=
  fun s => if s.length < n then none else some (s.take n, s.drop n)

/-- Skip up to `n` bytes; a bare `buffer.read(n)` never raises, even at EOF. -/
def skipB (n : Nat) : ParseM Unit := fun s => some ((), s.drop n)

/-- Unsigned little-endian field of `n` bytes. -/
def readU (n : Nat) : ParseM Nat := do
  let bs ← readBytes n
  pure (leVal bs)

/-- Signed little-endian field of `n` bytes. -/
def readI (n : Nat) : ParseM Int := do
  let bs ← readBytes n
  pure (toSigned n (leVal bs))

/-- Helper for `_read_string`: bytes up to a NUL or end of input, plus the rest. -/
def readStrGo : List Nat → Str × List Nat
  | [] => ([], [])
  | b :: t =>
    if b = 0 then ([], t)
    else
      let r := readStrGo t
      (b :: r.1, r.2)

/-- `FileIndex._read_string`: NUL-terminated Latin-1 string; EOF terminates without error. -/
def readStrP : ParseM Str := fun s => some (readStrGo s)

/-- Run a parser `n` times collecting results. -/
def pcount {α : Type} : Nat → ParseM α → ParseM (List α)
  | 0, _ => pure []
  | n + 1, p => do
    let a ← p
    let rest ← pcount n p
    pure (a :: rest)

/-- Run an index-dependent parser for indices `start, start+1, …, start+n-1`. -/
def pcountFrom {α : Type} (p : Nat → ParseM α) : Nat → Nat → ParseM (List α)
  | _, 0 => pure []
  | start, n + 1 => do
    let a ← p start
    let rest ← pcountFrom p (start + 1) n
    pure (a :: rest)

/-- Python `str.isspace` on a Latin-1 code point (the characters `str.strip` removes). -/
def isSpaceByte (b : Nat) : Bool :=
  b = 9 ∨ b = 10 ∨ b = 11 ∨ b = 12 ∨ b = 13 ∨
    b = 28 ∨ b = 29 ∨ b = 30 ∨ b = 31 ∨ b = 32 ∨ b = 133 ∨ b = 160

/-- Python `str.strip()`. -/
def strStrip (s : Str) : Str :=
  ((s.dropWhile isSpaceByte).reverse.dropWhile isSpaceByte).reverse

/-- Latin-1 bytes of an ASCII Lean string literal. -/
def strBytes (s : String) : Str := s.toList.map Char.toNat

/-- Split a byte string on any separator in `seps`, dropping empty segments
(the behaviour of `pathlib` path parsing). `cur` is the current segment, reversed. -/
def splitSepGo (seps : List Nat) : Str → Str → List Str
  | cur, [] => if cur.isEmpty then [] else [cur.reverse]
  | cur, b :: t =>
    if b ∈ seps then
      if cur.isEmpty then splitSepGo seps [] t
      else cur.reverse :: splitSepGo seps [] t
    else splitSepGo seps (b :: cur) t

/-- Split on `/`. -/
def splitSlash (s : Str) : List Str := splitSepGo [47] [] s

/-- A path is its list of components (`PurePosixPath`-style, root-anchored). -/
abbrev CPath := List Str

/-- `pathlib` `/` operator: an absolute right operand resets the path,
otherwise its segments are appended. -/
def pathJoin (p : CPath) (c : Str) : CPath :=
  if c.head? = some 47 then splitSlash c else p ++ splitSlash c

/-- `PurePath.parent`. -/
def pathParent (p : CPath) : CPath := p.dropLast

/-- `PurePath.name` (empty for the filesystem root). -/
def pathName (p : CPath) : Str := (p.getLast?).getD []

/-- `str()` of an absolute posix path. -/
def pathStr (p : CPath) : Str :=
  if p.isEmpty then [47] else (p.map (fun c => 47 :: c)).flatten

/-- The Windows-path sniff in `load_from_caf`:
`'\\' in device or (len(device) > 1 and device[1] == ':')`. -/
def isWindowsStr (s : Str) : Bool :=
  s.contains 92 || (decide (1 < s.length) && (((s.drop 1).head?).getD 0 == 58))

/-- Parse the stored root string into a path (`PureWindowsPath` also splits on `\`). -/
def decodeRootPath (s : Str) : CPath :=
  if isWindowsStr s then splitSepGo [47, 92] [] s else splitSlash s

/-- A filesystem node: regular file with content and mtime, or a directory. -/
inductive FsNode where
  | file (content : List Nat) (mtime : Nat)
  | dir (mtime : Nat)
deriving DecidableEq, Repr

/-- The filesystem: a finite map from absolute paths to nodes. -/
abbrev Fs := List (CPath × FsNode)

/-- `Path.stat()`: `none` models the raised `OSError` for a missing path. -/
def fsStat (fs : Fs) (p : CPath) : Option FsNode :=
  (fs.find? (fun e => e.1 = p)).map (·.2)

/-- `stat.S_ISREG`. -/
def isRegular : FsNode → Bool
  | .file _ _ => true
  | .dir _ => false

/-- `st_size` (directory sizes are irrelevant to every claim; 0 is used). -/
def nodeSize : FsNode → Nat
  | .file c _ => c.length
  | .dir _ => 0

/-- `int(st_mtime)`. -/
def nodeMtime : FsNode → Nat
  | .file _ m => m
  | .dir m => m

/-- Abstract content hash (`hashlib` is external): an injective total function of
the content whose hex digest is never the empty string. -/
def hashFn (c : List Nat) : Str := 1 :: c

/-- `calculate_file_hash`: empty string when the path cannot be opened for reading. -/
def calcHash (fs : Fs) (p : CPath) : Str :=
  match fsStat fs p with
  | some (.file c _) => hashFn c
  | _ => []

/-- `path_is_native_and_exists` (all modelled paths are native). -/
def pathExists (fs : Fs) (p : CPath) : Bool := (fsStat fs p).isSome

/-- `core/data_structures.py` `FileEntry`. -/
structure FileEntry where
  path : CPath
  size : Int
  mtime : Nat
  hash : Str
deriving DecidableEq, Repr

/-- `core/data_structures.py` `DuplicateMatch`. -/
structure DuplicateMatch where
  sourceFile : CPath
  destinations : List FileEntry
deriving DecidableEq, Repr

/-- Bucket lookup in a `defaultdict(list)` modelled as an association list
(`d.get(k, [])` / `d[k]` after a membership test). -/
def alGet {κ α : Type} [DecidableEq κ] : List (κ × List α) → κ → List α
  | [], _ => []
  | (k', v) :: t, k => if k' = k then v else alGet t k

/-- `k in d` on the association list. -/
def alMem {κ α : Type} [DecidableEq κ] : List (κ × List α) → κ → Bool
  | [], _ => false
  | (k', _) :: t, k => k' = k || alMem t k

/-- `d[k].append(e)` on a `defaultdict(list)`: extends the bucket in place,
creating it at the end on first use (dict insertion order). -/
def alApp {κ α : Type} [DecidableEq κ] : List (κ × List α) → κ → α → List (κ × List α)
  | [], k, e => [(k, [e])]
  | (k', v) :: t, k, e => if k' = k then (k', v ++ [e]) :: t else (k', v) :: alApp t k e

/-- `d[k].extend(vs)` on a `defaultdict(list)`. -/
def alExtend {κ α : Type} [DecidableEq κ] : List (κ × List α) → κ → List α → List (κ × List α)
  | [], k, vs => [(k, vs)]
  | (k', v) :: t, k, vs => if k' = k then (k', v ++ vs) :: t else (k', v) :: alExtend t k vs

/-- `core/file_index.py` `FileIndex`: in-memory bucketed index. -/
structure FileIndex where
  rootPath : CPath
  useHash : Bool
  hashAlgo : Str
  sizeIndex : List (Int × List FileEntry)
  hashIndex : List ((Int × Str) × List FileEntry)
  totalFiles : Nat
deriving DecidableEq, Repr

/-- `FileIndex.__init__`. -/
def initIndex (root : CPath) (useHash : Bool) (algo : Str) : FileIndex :=
  ⟨root, useHash, algo, [], [], 0⟩

/-- `FileIndex.add_file`. -/
def addFile (fs : Fs) (idx : FileIndex) (p : CPath) : Bool × FileIndex :=
  match fsStat fs p with
  | none => (false, idx)
  | some n =>
    if ¬ isRegular n then (false, idx)
    else
      let fileSize : Int := nodeSize n
      let mtime := nodeMtime n
      let fileHash := if idx.useHash then calcHash fs p else []
      if idx.useHash ∧ fileHash = [] then (false, idx)
      else
        let entry : FileEntry := ⟨p, fileSize, mtime, fileHash⟩
        (true,
          { idx with
            sizeIndex := alApp idx.sizeIndex fileSize entry
            hashIndex :=
              if idx.useHash then alApp idx.hashIndex (fileSize, fileHash) entry
              else idx.hashIndex
            totalFiles := idx.totalFiles + 1 })

/-- `FileIndex.find_potential_duplicates`. -/
def findPotentialDuplicates (idx : FileIndex) (fs : Fs) (p : CPath) : List FileEntry :=
  match fsStat fs p with
  | none => []
  | some n =>
    let fileSize : Int := nodeSize n
    if ¬ alMem idx.sizeIndex fileSize then []
    else if idx.useHash then
      let fileHash := calcHash fs p
      if fileHash = [] then [] else alGet idx.hashIndex (fileSize, fileHash)
    else
      (alGet idx.sizeIndex fileSize).filter (fun e => pathName e.path == pathName p)

/-- `FileIndex._find_hash_duplicates_optimized` (the indexes produced by
`load_from_caf` and `add_file` never carry a `raw_elm` attribute, so the
`size_index` fallback branch is the live code). -/
def findHashDuplicatesOptimized (idx : FileIndex) (fs : Fs) (p : CPath) (fileSize : Int) :
    List FileEntry :=
  let cands := (alGet idx.sizeIndex fileSize).map (fun e => (e.path, e.mtime, e.size))
  if cands.isEmpty then []
  else
    let srcHash := calcHash fs p
    if srcHash = [] then []
    else
      cands.filterMap (fun c =>
        if ¬ pathExists fs c.1 then some ⟨c.1, c.2.2, c.2.1, []⟩
        else
          let ch := calcHash fs c.1
          if ch ≠ [] ∧ ch = srcHash then some ⟨c.1, c.2.2, c.2.1, ch⟩ else none)

/-- `FileIndex._find_name_duplicates_optimized` (`size_index` fallback branch). -/
def findNameDuplicatesOptimized (idx : FileIndex) (p : CPath) (fileSize : Int) :
    List FileEntry :=
  (alGet idx.sizeIndex fileSize).filter (fun e => pathName e.path == pathName p)

/-- `FileIndex.find_potential_duplicates_optimized`. -/
def findPotentialDuplicatesOptimized (idx : FileIndex) (fs : Fs) (p : CPath) :
    List FileEntry :=
  match fsStat fs p with
  | none => []
  | some n =>
    if idx.useHash then findHashDuplicatesOptimized idx fs p (nodeSize n)
    else findNameDuplicatesOptimized idx p (nodeSize n)

/-- `Path.rglob('*')` filtered by `is_file()`: every regular file strictly below `root`. -/
def rglobFiles (fs : Fs) (root : CPath) : List CPath :=
  fs.filterMap (fun e =>
    if e.1.take root.length = root ∧ root.length < e.1.length ∧ isRegular e.2 then some e.1
    else none)

/-- The `source_files_by_size` grouping pass of `find_all_duplicates_bulk`. -/
def groupBySize (fs : Fs) (ps : List CPath) : List (Int × List CPath) :=
  ps.foldl
    (fun acc p =>
      match fsStat fs p with
      | none => acc
      | some n => alApp acc ((nodeSize n : Int)) p)
    []

/-- `FileIndex.find_all_duplicates_bulk` (fallback branches: neither index carries
`raw_elm`; the progress callback and cancel event are not exercised by the claims). -/
def findAllDuplicatesBulk (fs : Fs) (srcIdx destIdx : FileIndex) : List DuplicateMatch :=
  let groups := groupBySize fs (rglobFiles fs srcIdx.rootPath)
  groups.foldl
    (fun acc g =>
      let destCands := (alGet destIdx.sizeIndex g.1).map (fun e => (e.path, e.mtime, e.size))
      if destCands.isEmpty then acc
      else
        acc ++ g.2.filterMap (fun f =>
          let ms := findPotentialDuplicatesOptimized destIdx fs f
          if ms.isEmpty then none else some ⟨f, ms⟩))
    []

/-- CAF magic base (`ulMagicBase`). -/
def ulMagicBase : Nat := 500410407

/-- CAF magic modulus (`ulModus`). -/
def ulModus : Nat := 1000000000

/-- Current save version (`saveVersion`). -/
def saveVersion : Int := 8

/-- One raw element of the CAF element block. -/
structure RawElm where
  mtime : Nat
  size : Int
  parent : Nat
  name : Str
deriving DecidableEq, Repr

/-- Magic-word validation and version derivation (`load_from_caf` lines 78-84):
the quotient of the magic by `ulModus` is the version unless it exceeds 2, in
which case an explicit 16-bit signed version field follows. -/
def parseMagicVersion : ParseM Int := do
  let magic ← readU 4
  pguard (0 < magic ∧ magic % ulModus = ulMagicBase)
  let q : Int := (magic / ulModus : Nat)
  if 2 < q then readI 2 else pure q

/-- One entry of the directory-summary block (`load_from_caf` lines 115-123):
a name for entry 0 or for `version ≤ 3`, then for `version ≥ 3` a 32-bit file
count and the 8 raw bytes of the total-size double. -/
def parseDirEntry (version : Int) (i : Nat) : ParseM (Int × List Nat) := do
  if i = 0 ∨ version ≤ 3 then
    let _ ← readStrP
    pure ()
  else pure ()
  if 3 ≤ version then
    let c ← readI 4
    let bs ← readBytes 8
    pure (c, bs)
  else pure (0, [])

/-- Directory-summary block: count then entries (`range` of a negative count is empty). -/
def parseDirBlock (version : Int) : ParseM (List (Int × List Nat)) := do
  let dirCount ← readI 4
  pcountFrom (parseDirEntry version) 0 dirCount.toNat

/-- One element record (`load_from_caf` lines 130-149): mtime, a 4-byte signed
size for `version ≤ 6` or an 8-byte signed size otherwise, a 2-byte parent id
for `version ≤ 7` or a 4-byte one otherwise, and a NUL-terminated name. -/
def parseElem (version : Int) : ParseM RawElm := do
  let mtime ← readU 4
  let size ← if version ≤ 6 then readI 4 else readI 8
  let parent ← if 7 < version then readU 4 else readU 2
  let name ← readStrP
  pure ⟨mtime, size, parent, name⟩

/-- Header and directory-summary prefix of `load_from_caf` (lines 78-123),
shared with the directory-0 projection used by the catalog comparison. -/
def parseCafThroughDirs : ParseM (Int × Str × List (Int × List Nat)) := do
  let version ← parseMagicVersion
  pguard (version ≤ saveVersion)
  skipB 4
  let device ← if 2 ≤ version then readStrP else pure []
  let _ ← readStrP
  let _ ← readStrP
  skipB 4
  let _ ← if 4 ≤ version then readStrP else pure []
  if 1 ≤ version then skipB 4 else pure ()
  if 6 ≤ version then skipB 2 else pure ()
  let dirInfo ← parseDirBlock version
  pure (version, device, dirInfo)

/-- The full structural parse of `load_from_caf` (lines 78-151). -/
def parseCafAll : ParseM (Int × Str × List RawElm) := do
  let (version, device, _) ← parseCafThroughDirs
  let n ← readI 4
  let elems ← pcount n.toNat (parseElem version)
  pure (version, device, elems)

/-- The set of parent ids referenced by any element (`referenced_parent_ids`). -/
def refParents (elems : List RawElm) : List Nat := elems.map (·.parent)

/-- The `DirectoryPathMap` (`dir_path_map`): directory id to resolved path. -/
abbrev DirMap := List (Nat × CPath)

/-- Dictionary lookup on the directory map. -/
def dmGet : DirMap → Nat → Option CPath
  | [], _ => none
  | (k, v) :: t, k' => if k = k' then some v else dmGet t k'

/-- Dictionary assignment on the directory map. -/
def dmSet : DirMap → Nat → CPath → DirMap
  | [], k, v => [(k, v)]
  | (k', v') :: t, k, v => if k' = k then (k, v) :: t else (k', v') :: dmSet t k v

/-- One full pass of the legacy directory-resolution loop (`load_from_caf`
lines 165-175); returns the updated map and the number of entries created. -/
def legacyPassGo (refs : List Nat) : Nat → List RawElm → DirMap → Nat → DirMap × Nat
  | _, [], m, c => (m, c)
  | i, e :: t, m, c =>
    if (i + 1) ∈ refs ∧ (dmGet m (i + 1)).isNone then
      match dmGet m e.parent with
      | some pp => legacyPassGo refs (i + 1) t (dmSet m (i + 1) (pathJoin pp (strStrip e.name))) (c + 1)
      | none => legacyPassGo refs (i + 1) t m c
    else legacyPassGo refs (i + 1) t m c

/-- The legacy `while True` loop: repeat passes until one creates nothing.
`elems.length + 1` passes always suffice, since each productive pass adds at
least one of at most `elems.length` directory ids. -/
def legacyBuild (refs : List Nat) (elems : List RawElm) : Nat → DirMap → DirMap
  | 0, m => m
  | fuel + 1, m =>
    let r := legacyPassGo refs 0 elems m 0
    if r.2 = 0 then r.1 else legacyBuild refs elems fuel r.1

/-- The legacy file-adding loop (`load_from_caf` lines 183-194): non-directory
elements with a resolved parent and non-blank name are appended to the size
index with their raw decoded size; returns the index and `files_added`. -/
def legacyAddFiles (refs : List Nat) (dmap : DirMap) :
    Nat → List RawElm → FileIndex → Nat → FileIndex × Nat
  | _, [], idx, c => (idx, c)
  | i, e :: t, idx, c =>
    if (i + 1) ∈ refs then legacyAddFiles refs dmap (i + 1) t idx c
    else
      match dmGet dmap e.parent with
      | some pp =>
        if strStrip e.name ≠ [] then
          let entry : FileEntry := ⟨pathJoin pp (strStrip e.name), e.size, e.mtime, []⟩
          legacyAddFiles refs dmap (i + 1) t
            { idx with sizeIndex := alApp idx.sizeIndex e.size entry } (c + 1)
        else legacyAddFiles refs dmap (i + 1) t idx c
      | none => legacyAddFiles refs dmap (i + 1) t idx c

/-- The modern (version > 6) directory-resolution pass (`load_from_caf`
lines 201-207): a single pass in element order, with no repetition. -/
def modernDirPass : List RawElm → DirMap → DirMap
  | [], m => m
  | e :: t, m =>
    if e.size < 0 then
      match dmGet m e.parent with
      | some pp =>
        if e.name ≠ [] then modernDirPass t (dmSet m (-e.size).toNat (pathJoin pp e.name))
        else modernDirPass t m
      | none => modernDirPass t m
    else modernDirPass t m

/-- The final file-adding loop of `load_from_caf` (lines 215-242), run for every
version: skips directories, requires a resolved parent and a non-blank name,
and clamps the size to `max(size, 1)` for modern versions (1024 for legacy). -/
def generalAddGo (version : Int) (refs : List Nat) (dmap : DirMap) :
    Nat → List RawElm → FileIndex → FileIndex
  | _, [], idx => idx
  | i, e :: t, idx =>
    if 6 < version ∧ e.size < 0 then generalAddGo version refs dmap (i + 1) t idx
    else if version ≤ 6 ∧ (i + 1) ∈ refs then generalAddGo version refs dmap (i + 1) t idx
    else
      match dmGet dmap e.parent with
      | some pp =>
        if strStrip e.name ≠ [] then
          let actual : Int := if version ≤ 6 then 1024 else max e.size 1
          let entry : FileEntry := ⟨pathJoin pp e.name, actual, e.mtime, []⟩
          generalAddGo version refs dmap (i + 1) t
            { idx with
              sizeIndex := alApp idx.sizeIndex actual entry
              totalFiles := idx.totalFiles + 1 }
        else generalAddGo version refs dmap (i + 1) t idx
      | none => generalAddGo version refs dmap (i + 1) t idx

/-- Post-processing of the parsed elements (`load_from_caf` lines 153-256). -/
def buildFromElems (version : Int) (useHash : Bool) (algo : Str) (root : CPath)
    (elems : List RawElm) : FileIndex :=
  let refs := refParents elems
  let dm0 : DirMap := [(0, root)]
  if version ≤ 6 then
    let dmap := legacyBuild refs elems (elems.length + 1) dm0
    let r := legacyAddFiles refs dmap 0 elems (initIndex root useHash algo) 0
    generalAddGo version refs dmap 0 elems { r.1 with totalFiles := r.2 }
  else
    let dmap := modernDirPass elems dm0
    generalAddGo version refs dmap 0 elems (initIndex root useHash algo)

/-- `FileIndex.load_from_caf`: `none` models every structural decode failure. -/
def loadFromCaf (stream : List Nat) (useHash : Bool) (algo : Str) : Option FileIndex :=
  match parseCafAll stream with
  | none => none
  | some ((version, device, elems), _) =>
    some (buildFromElems version useHash algo (decodeRootPath device) elems)

/-- The format version a stream declares (the magic/version prefix only). -/
def cafVersionOf (stream : List Nat) : Option Int :=
  (parseMagicVersion stream).map (·.1)

/-- The directory-0 summary values `load_from_caf` reads (its `dir_info[0]`,
lines 110-123): file count and total size, the latter through the supplied
double conversion. -/
def loadFromCafDir0 (stream : List Nat) (f64ToInt : List Nat → Int) : Option (Int × Int) :=
  match parseCafThroughDirs stream with
  | some ((_, _, d0 :: _), _) => some (d0.1, f64ToInt d0.2)
  | _ => none

/-- The summary `IndexDiscovery.get_index_info` extracts. -/
structure IdxInfo where
  fileCount : Int
  totalSize : Int
  created : Nat
deriving DecidableEq, Repr

/-- `IndexDiscovery.get_index_info`: reads the version field, the root string,
the comment, the free-size and archive fields unconditionally, with no
version-dependent skipping. -/
def getIndexInfo (stream : List Nat) (f64ToInt : List Nat → Int) : Option IdxInfo :=
  ((do
    let magic ← readU 4
    pguard (0 < magic ∧ magic % ulModus = ulMagicBase)
    let _ ← readI 2
    let created ← readU 4
    let _ ← readStrP
    let _ ← readStrP
    let _ ← readStrP
    skipB 4
    let _ ← readStrP
    skipB 4
    skipB 2
    let dirCount ← readI 4
    if 0 < dirCount then do
      let _ ← readStrP
      let c ← readI 4
      let bs ← readBytes 8
      pure (⟨c, f64ToInt bs, created⟩ : IdxInfo)
    else pure (⟨0, 0, created⟩ : IdxInfo) : ParseM IdxInfo) stream).map (·.1)

/-- `_write_string`: Latin-1 with `errors='replace'` (unencodable characters
become `?`), then a NUL terminator. -/
def wStr (s : Str) : List Nat := s.map (fun b => if b < 256 then b else 63) ++ [0]

/-- All entries of the size index in bucket order (`size_index.values()`). -/
def allEntries (idx : FileIndex) : List FileEntry := (idx.sizeIndex.map (·.2)).flatten

/-- The set of parent directories of all entries (`all_dirs`), in first-seen order. -/
def allDirsOf (es : List FileEntry) : List CPath :=
  (es.map (fun e => pathParent e.path)).dedup

/-- Insert into a list sorted by ascending component count. -/
def insByLen (d : CPath) : List CPath → List CPath
  | [] => [d]
  | x :: t => if x.length ≤ d.length then x :: insByLen d t else d :: x :: t

/-- `sorted(all_dirs, key=len(parts))`: sort by depth (tie order is unspecified
in the source, which sorts a Python set; this is one allowed order). -/
def sortByLen : List CPath → List CPath
  | [] => []
  | d :: t => insByLen d (sortByLen t)

/-- Assign directory ids in order, root first with id 0 (`dir_id_map`). -/
def mkDirIdMapGo : List CPath → List (CPath × Nat) → Nat → List (CPath × Nat)
  | [], m, _ => m
  | d :: t, m, next =>
    if (m.find? (fun e => e.1 = d)).isSome then mkDirIdMapGo t m next
    else mkDirIdMapGo t (m ++ [(d, next)]) (next + 1)

/-- `dir_id_map` construction in `save_to_caf`. -/
def mkDirIdMap (root : CPath) (dirs : List CPath) : List (CPath × Nat) :=
  mkDirIdMapGo dirs [(root, 0)] 1

/-- Lookup in `dir_id_map` (`none` models the caught `KeyError`). -/
def pidGet (m : List (CPath × Nat)) (p : CPath) : Option Nat :=
  (m.find? (fun e => e.1 = p)).map (·.2)

/-- Directory elements of the save (`save_to_caf` lines 595-603): a directory is
skipped when its parent has no id (`KeyError`) or its own `stat` fails (`OSError`). -/
def saveDirElems (fs : Fs) (dim : List (CPath × Nat)) : List RawElm :=
  dim.filterMap (fun e =>
    if e.2 = 0 then none
    else
      match pidGet dim (pathParent e.1), fsStat fs e.1 with
      | some pid, some n => some ⟨nodeMtime n, -(e.2 : Int), pid, pathName e.1⟩
      | _, _ => none)

/-- File elements of the save (`save_to_caf` lines 606-613). -/
def saveFileElems (dim : List (CPath × Nat)) (es : List FileEntry) : List RawElm :=
  es.filterMap (fun e =>
    (pidGet dim (pathParent e.path)).map (fun pid => ⟨e.mtime, e.size, pid, pathName e.path⟩))

/-- `dir_stats[did]['file_count']` over the written file elements. -/
def dirStatCount (fes : List RawElm) (did : Nat) : Int :=
  ((fes.filter (fun e => e.parent = did)).length : Int)

/-- `dir_stats[did]['total_size']` over the written file elements. -/
def dirStatSize (fes : List RawElm) (did : Nat) : Int :=
  (fes.filter (fun e => e.parent = did)).foldl (fun a e => a + e.size) 0

/-- The `info` list (`save_to_caf` lines 616-623): per-directory summaries, with
the aggregate totals at index 0. -/
def mkInfo (nextId : Nat) (fes : List RawElm) : List (Int × Int) :=
  (List.range nextId).map (fun i =>
    if i = 0 then ((fes.length : Int), fes.foldl (fun a e => a + e.size) 0)
    else (dirStatCount fes i, dirStatSize fes i))

/-- The comment string written by `_write_caf`. -/
def commentOf (useHash : Bool) (algo : Str) : Str :=
  strBytes "Universal Search Index (hash: " ++
    (if useHash then algo else strBytes "none") ++ strBytes ")"

/-- `self.root_path.name or str(self.root_path)`. -/
def rootLeafName (root : CPath) : Str :=
  if pathName root ≠ [] then pathName root else pathStr root

/-- One element record as written by `_write_caf` (lines 656-660). -/
def writeElm (e : RawElm) : List Nat :=
  wU 4 e.mtime ++ wI 8 e.size ++ wU 4 e.parent ++ wStr e.name

/-- `FileIndex._write_caf`: the full byte stream (`struct.pack('<f', 0.0)` is
the four zero bytes; the total-size doubles go through `encF64`). -/
def writeCaf (root : CPath) (useHash : Bool) (algo : Str) (now : Nat)
    (encF64 : Int → List Nat) (elm : List RawElm) (info : List (Int × Int)) : List Nat :=
  wU 4 (3 * ulModus + ulMagicBase) ++ wI 2 saveVersion ++ wU 4 now ++
    wStr (pathStr root) ++ wStr (rootLeafName root) ++ wStr (rootLeafName root) ++
    wU 4 0 ++
    wStr (commentOf useHash algo) ++
    [0, 0, 0, 0] ++
    wI 2 0 ++
    wI 4 (info.length : Int) ++
    (info.enum.map (fun ie =>
      (if ie.1 = 0 then wStr [] else []) ++ wI 4 ie.2.1 ++ encF64 ie.2.2)).flatten ++
    wI 4 (elm.length : Int) ++
    (elm.map writeElm).flatten

/-- `FileIndex.save_to_caf`. -/
def saveToCaf (idx : FileIndex) (fs : Fs) (now : Nat) (encF64 : Int → List Nat) : List Nat :=
  let es := allEntries idx
  let dim := mkDirIdMap idx.rootPath (sortByLen (allDirsOf es))
  let felm := saveFileElems dim es
  writeCaf idx.rootPath idx.useHash idx.hashAlgo now encF64
    (saveDirElems fs dim ++ felm) (mkInfo dim.length felm)

/-- Extend every bucket of `m` by the buckets of `src` (the merge loops of
`build_destination_index`, `search_logic.py` lines 209-213). -/
def alExtendAll {κ α : Type} [DecidableEq κ]
    (m src : List (κ × List α)) : List (κ × List α) :=
  src.foldl (fun acc kv => alExtend acc kv.1 kv.2) m

/-- Merging one destination index into the combined index
(`build_destination_index`, `search_logic.py` lines 208-214): size buckets are
always extended, hash buckets only when hashing is on, counts are summed. -/
def mergeIndex (acc dest : FileIndex) : FileIndex :=
  { acc with
    sizeIndex := alExtendAll acc.sizeIndex dest.sizeIndex
    hashIndex := if acc.useHash then alExtendAll acc.hashIndex dest.hashIndex else acc.hashIndex
    totalFiles := acc.totalFiles + dest.totalFiles }

/-- The bucketed indexes reachable by any sequence of constructions, `add_file`
calls, `load_from_caf` loads and `build_destination_index`-style merges. -/
inductive Reach : FileIndex → Prop where
  | init (root : CPath) (u : Bool) (a : Str) : Reach (initIndex root u a)
  | add (fs : Fs) (p : CPath) {i : FileIndex} : Reach i → Reach (addFile fs i p).2
  | load (s : List Nat) (u : Bool) (a : Str) {i : FileIndex} :
      loadFromCaf s u a = some i → Reach i
  | merge {i j : FileIndex} : Reach i → Reach j → Reach (mergeIndex i j)

/-- The size-bucket invariant of `BucketedIndex` (§3 of the specification):
every entry of a hash bucket also appears in the size bucket keyed by its size. -/
def SizeBucketInv (idx : FileIndex) : Prop :=
  ∀ k e, e ∈ alGet idx.hashIndex k → e ∈ alGet idx.sizeIndex e.size

/-- Test-stream constructor: the header of a hand-crafted stream laid out with
version `v`'s field set (the layout `load_from_caf` expects; §4.1 step 2-3). -/
def mkHdr (v : Nat) : List Nat :=
  (if v ≤ 2 then wU 4 (v * ulModus + ulMagicBase)
   else wU 4 (3 * ulModus + ulMagicBase) ++ wI 2 (v : Int)) ++
    [0, 0, 0, 0] ++
    (if 2 ≤ v then [47, 114, 0] else []) ++
    [0] ++ [0] ++
    [0, 0, 0, 0] ++
    (if 4 ≤ v then [0] else []) ++
    (if 1 ≤ v then [0, 0, 0, 0] else []) ++
    (if 6 ≤ v then [0, 0] else [])

/-- Test-stream constructor: a directory-summary block with version `v`'s layout
(name, 32-bit count, 8 raw double bytes per entry as applicable). -/
def mkDirBlk (v : Nat) (dirs : List (Str × Int × List Nat)) : List Nat :=
  wI 4 (dirs.length : Int) ++
    (dirs.enum.map (fun ie =>
      (if ie.1 = 0 ∨ v ≤ 3 then ie.2.1 ++ [0] else []) ++
        (if 3 ≤ v then wI 4 ie.2.2.1 ++ ie.2.2.2 else []))).flatten

/-- Test-stream constructor: one element with version `v`'s field widths. -/
def mkElemBytes (v : Nat) (e : RawElm) : List Nat :=
  wU 4 e.mtime ++ (if v ≤ 6 then wI 4 e.size else wI 8 e.size) ++
    (if 7 < v then wU 4 e.parent else wU 2 e.parent) ++ e.name ++ [0]

/-- Test-stream constructor: a complete minimal CAF stream for version `v`. -/
def mkCaf (v : Nat) (dirs : List (Str × Int × List Nat)) (elems : List RawElm) : List Nat :=
  mkHdr v ++ mkDirBlk v dirs ++ wI 4 (elems.length : Int) ++
    (elems.map (mkElemBytes v)).flatten

/-- Byte string of the default hash algorithm name. -/
def exMd5 : Str := strBytes "md5"

/-- Example filesystem for the hash-versus-name matcher example: `d/b.txt` and
`s/a.txt` hold the identical two-byte content. -/
def exFs9 : Fs :=
  [ ([[100]], .dir 0),
    ([[100], strBytes "b.txt"], .file [7, 8] 11),
    ([[115]], .dir 0),
    ([[115], strBytes "a.txt"], .file [7, 8] 12) ]

/-- The query path `s/a.txt`. -/
def exAPath : CPath := [[115], strBytes "a.txt"]

/-- Index over `d` containing only `b.txt`, built with hashing enabled. -/
def exIdx9Hash : FileIndex :=
  (addFile exFs9 (initIndex [[100]] true exMd5) [[100], strBytes "b.txt"]).2

/-- Index over `d` containing only `b.txt`, built with hashing disabled. -/
def exIdx9Name : FileIndex :=
  (addFile exFs9 (initIndex [[100]] false exMd5) [[100], strBytes "b.txt"]).2

/-- Minimal version-1 stream: one directory element (name `d`, parent 0) and one
file element (mtime 5, stored size 7, parent 1, name `f`). -/
def exStreamV1 : List Nat :=
  mkCaf 1 [([], 0, [])] [⟨0, 0, 0, [100]⟩, ⟨5, 7, 1, [102]⟩]

/-- Version-8 stream whose second directory element (id 2, name `b`) precedes
its parent (id 1, name `a`); the file element hangs under directory 2. -/
def exStreamC3Bad : List Nat :=
  mkCaf 8 [([], 1, [0, 0, 0, 0, 0, 0, 0, 0])]
    [⟨0, -2, 1, [98]⟩, ⟨0, -1, 0, [97]⟩, ⟨5, 3, 2, [102]⟩]

/-- The same stream with the parent directory element first. -/
def exStreamC3Good : List Nat :=
  mkCaf 8 [([], 1, [0, 0, 0, 0, 0, 0, 0, 0])]
    [⟨0, -1, 0, [97]⟩, ⟨0, -2, 1, [98]⟩, ⟨5, 3, 2, [102]⟩]

/-- Minimal version-8 stream: one directory (id 1, name `e`) and one file of
size 9 under it (name `f`). -/
def exStreamV8 : List Nat :=
  mkCaf 8 [([], 1, [0, 0, 0, 0, 0, 0, 0, 0]), ([], 1, [0, 0, 0, 0, 0, 0, 0, 0])]
    [⟨0, -1, 0, [101]⟩, ⟨5, 9, 1, [102]⟩]

/-- Filesystem on which `exStreamV8`'s file `/r/e/f` exists with size 9. -/
def exFsV8 : Fs :=
  [ ([[114]], .dir 0),
    ([[114], [101]], .dir 0),
    ([[114], [101], [102]], .file [3, 3, 3, 3, 3, 3, 3, 3, 3] 5),
    ([[113]], .file [3, 3, 3, 3, 3, 3, 3, 3, 3] 6) ]

/-- Filesystem for the round-trip failing input: root `r`, directories `r/a` and
`r/a/b`, and the single indexed file `r/a/b/f.txt`, all present on disk. -/
def exFs1 : Fs :=
  [ ([[114]], .dir 0),
    ([[114], [97]], .dir 0),
    ([[114], [97], [98]], .dir 0),
    ([[114], [97], [98], strBytes "f.txt"], .file [7] 3) ]

/-- The single entry of the round-trip failing input: `r/a/b/f.txt`, size 1. -/
def exEnt1 : FileEntry := ⟨[[114], [97], [98], strBytes "f.txt"], 1, 3, []⟩

/-- A bucketed index over root `r` holding only `r/a/b/f.txt` (positive size,
Latin-1 name): the round-trip failing input. -/
def exIdx1 : FileIndex := ⟨[[114]], false, exMd5, [(1, [exEnt1])], [], 1⟩

/-- A fixed double encoder (the doubles are advisory and never re-read). -/
def exEnc0 : Int → List Nat := fun _ => [0, 0, 0, 0, 0, 0, 0, 0]

/-- A fixed double-to-int conversion for the catalog comparison. -/
def exF64Zero : List Nat → Int := fun _ => 0

/-- Minimal version-5 stream: directory summary `(count 1, total 0)` and one
file element; version 5 has no archive field. -/
def exStreamV5 : List Nat :=
  mkCaf 5 [([], 1, [1, 2, 3, 4, 5, 6, 7, 8])] [⟨5, 7, 0, [102]⟩]

/-- A destination entry for `d/b.txt` whose file no longer exists on disk and
whose recorded hash differs from the query's content hash. -/
def exBDead : FileEntry := ⟨[[100], strBytes "b.txt"], 2, 11, hashFn [9, 9]⟩

/-- A hashing destination index holding only the stale entry `exBDead`. -/
def exDestDead : FileIndex :=
  ⟨[[100]], true, exMd5, [(2, [exBDead])], [((2, hashFn [9, 9]), [exBDead])], 1⟩

/-- Filesystem for the bulk-versus-single counterexample: only the source tree
`s` with `s/a.txt` exists; the destination file is gone. -/
def exFsC5 : Fs :=
  [ ([[115]], .dir 0),
    ([[115], strBytes "a.txt"], .file [7, 8] 12) ]

/-- The source-side index (only its root is consulted by the bulk matcher). -/
def exSrcC5 : FileIndex := initIndex [[115]] true exMd5

/-- A structurally truncated stream: magic and version only, ending before the
directory-count field. -/
def exStreamTrunc : List Nat := wU 4 (3 * ulModus + ulMagicBase) ++ wI 2 8

/-- Version-8 stream with three file elements: a good one (parent 0), one with a
dangling parent id 5, one with a blank name, then another good one. -/
def exStreamSkip : List Nat :=
  mkCaf 8 [([], 2, [0, 0, 0, 0, 0, 0, 0, 0])]
    [⟨1, 4, 0, [103]⟩, ⟨2, 4, 5, [104]⟩, ⟨3, 4, 0, [32]⟩, ⟨4, 6, 0, [105]⟩]

/-- Version-8 stream containing a file element whose stored size is 0. -/
def exStreamV8Size0 : List Nat :=
  mkCaf 8 [([], 1, [0, 0, 0, 0, 0, 0, 0, 0])] [⟨5, 0, 0, [102]⟩]

/-- The magic-word validity test of `load_from_caf`
(`magic > 0 and magic % ulModus == ulMagicBase`). -/
def magicOk (m : Nat) : Prop := 0 < m ∧ m % ulModus = ulMagicBase

instance (m : Nat) : Decidable (magicOk m) := by unfold magicOk; infer_instance

/-- A stream declaring the unsupported version 9. -/
def exStreamV9 : List Nat := wU 4 (3 * ulModus + ulMagicBase) ++ wI 2 9

/-- Membership in any bucket of an association-list bucket map. -/
def memBuckets {κ α : Type} (e : α) (m : List (κ × List α)) : Prop := ∃ kv ∈ m, e ∈ kv.2

/-- An index built by a sequence of `add_file` calls over one filesystem
(the index-construction loop of `build_destination_index`). -/
def buildIndexFs (fs : Fs) (root : CPath) (u : Bool) (a : Str) (ps : List CPath) : FileIndex :=
  ps.foldl (fun i p => (addFile fs i p).2) (initIndex root u a)

/-- What `add_file` over `fs` records in an entry of a bucket keyed `k`:
the key is the entry's size, and the path was a regular file whose size, mtime
and (when hashing) content hash were recorded. -/
def EntryOk (fs : Fs) (u : Bool) (k : Int) (e : FileEntry) : Prop :=
  e.size = k ∧ ∃ c m, fsStat fs e.path = some (.file c m) ∧
    e.size = (c.length : Int) ∧ e.mtime = m ∧ e.hash = (if u then hashFn c else [])

/-- Invariant of every index built by `add_file` over `fs`: the hashing flag,
well-formed nonempty size buckets, and (when hashing) each hash bucket being
exactly the hash-filtered size bucket. -/
def BuiltInv (fs : Fs) (u : Bool) (idx : FileIndex) : Prop :=
  idx.useHash = u ∧
  (∀ kv ∈ idx.sizeIndex, kv.2 ≠ [] ∧ ∀ e ∈ kv.2, EntryOk fs u kv.1 e) ∧
  (u = true → ∀ s h, alGet idx.hashIndex (s, h) =
    (alGet idx.sizeIndex s).filter (fun e => e.hash == h))

/-- The matches the bulk scan emits for one size group. -/
def bulkGroupMatches (fs : Fs) (destIdx : FileIndex) (g : Int × List CPath) :
    List DuplicateMatch :=
  if ((alGet destIdx.sizeIndex g.1).map (fun e => (e.path, e.mtime, e.size))).isEmpty then []
  else g.2.filterMap (fun f =>
    let ms := findPotentialDuplicatesOptimized destIdx fs f
    if ms.isEmpty then none else some ⟨f, ms⟩)


set_option maxRecDepth 200000

/-- Application rule for the parser bind. -/
theorem parseBind_apply {α β : Type} (m : ParseM α) (f : α → ParseM β) (s : List Nat) :
    (m >>= f) s =
      match m s with
      | none => none
      | some (a, s') => f a s' := rfl

/-- Application rule for the parser pure. -/
theorem parsePure_apply {α : Type} (a : α) (s : List Nat) :
    (pure a : ParseM α) s = some (a, s) := rfl

/-- Application rule for `pguard`. -/
theorem pguard_apply (p : Prop) [Decidable p] (s : List Nat) :
    pguard p s = if p then some ((), s) else none := rfl

/-- Lookup after a bucket append. -/
theorem alGet_alApp {κ α : Type} [DecidableEq κ] (m : List (κ × List α)) (k k' : κ) (e : α) :
    alGet (alApp m k e) k' = if k = k' then alGet m k' ++ [e] else alGet m k' := by
  induction m with
  | nil =>
    by_cases h : k = k' <;> simp [alApp, alGet, h]
  | cons kv t ih =>
    obtain ⟨k0, v0⟩ := kv
    simp only [alApp]
    by_cases h0 : k0 = k
    · subst h0
      rw [if_pos rfl]
      by_cases h1 : k0 = k' <;> simp [alGet, h1]
    · rw [if_neg h0]
      by_cases h1 : k0 = k'
      · subst h1
        have h2 : k ≠ k0 := fun h => h0 h.symm
        simp [alGet, h2]
      · simp [alGet, h1, ih]

/-- Lookup after a bucket extension. -/
theorem alGet_alExtend {κ α : Type} [DecidableEq κ] (m : List (κ × List α)) (k k' : κ)
    (vs : List α) :
    alGet (alExtend m k vs) k' = if k = k' then alGet m k' ++ vs else alGet m k' := by
  induction m with
  | nil =>
    by_cases h : k = k' <;> simp [alExtend, alGet, h]
  | cons kv t ih =>
    obtain ⟨k0, v0⟩ := kv
    simp only [alExtend]
    by_cases h0 : k0 = k
    · subst h0
      rw [if_pos rfl]
      by_cases h1 : k0 = k' <;> simp [alGet, h1]
    · rw [if_neg h0]
      by_cases h1 : k0 = k'
      · subst h1
        have h2 : k ≠ k0 := fun h => h0 h.symm
        simp [alGet, h2]
      · simp [alGet, h1, ih]

/-- A member of a looked-up bucket comes from a bucket with that key. -/
theorem alGet_mem_exists {κ α : Type} [DecidableEq κ] (m : List (κ × List α)) (k : κ) (e : α)
    (h : e ∈ alGet m k) : ∃ kv ∈ m, kv.1 = k ∧ e ∈ kv.2 := by
  induction m with
  | nil => simp [alGet] at h
  | cons kv t ih =>
    obtain ⟨k0, v0⟩ := kv
    by_cases h0 : k0 = k
    · subst h0
      simp [alGet] at h
      exact ⟨(k0, v0), by simp, rfl, h⟩
    · simp [alGet, h0] at h
      obtain ⟨kv', hkv', hk, he⟩ := ih h
      exact ⟨kv', by simp [hkv'], hk, he⟩

/-- An empty lookup result for an absent key. -/
theorem alGet_eq_nil_of_not_alMem {κ α : Type} [DecidableEq κ] (m : List (κ × List α)) (k : κ)
    (h : alMem m k = false) : alGet m k = [] := by
  induction m with
  | nil => simp [alGet]
  | cons kv t ih =>
    obtain ⟨k0, v0⟩ := kv
    simp [alMem] at h
    simp [alGet, h.1, ih h.2]

/-- A present key's bucket is a member bucket. -/
theorem alMem_exists {κ α : Type} [DecidableEq κ] (m : List (κ × List α)) (k : κ)
    (h : alMem m k = true) : ∃ kv ∈ m, kv.1 = k ∧ alGet m k = kv.2 := by
  induction m with
  | nil => simp [alMem] at h
  | cons kv t ih =>
    obtain ⟨k0, v0⟩ := kv
    by_cases h0 : k0 = k
    · subst h0
      exact ⟨(k0, v0), by simp, rfl, by simp [alGet]⟩
    · simp [alMem, h0] at h
      obtain ⟨kv', hkv', hk, he⟩ := ih h
      exact ⟨kv', by simp [hkv'], hk, by simp [alGet, h0, he]⟩

/-- A nonempty lookup means the key is present. -/
theorem alMem_of_alGet_ne_nil {κ α : Type} [DecidableEq κ] (m : List (κ × List α)) (k : κ)
    (h : alGet m k ≠ []) : alMem m k = true := by
  by_contra hm
  simp at hm
  exact h (alGet_eq_nil_of_not_alMem m k hm)

/-- Invariant preservation for a bucket append. -/
theorem alApp_inv {κ α : Type} [DecidableEq κ] (Q : κ → Prop) (R : α → Prop)
    (m : List (κ × List α)) (k : κ) (e : α)
    (hm : ∀ kv ∈ m, Q kv.1 ∧ ∀ x ∈ kv.2, R x) (hk : Q k) (he : R e) :
    ∀ kv ∈ alApp m k e, Q kv.1 ∧ ∀ x ∈ kv.2, R x := by
  induction m with
  | nil =>
    intro kv hkv
    simp [alApp] at hkv
    subst hkv
    exact ⟨hk, by simpa using he⟩
  | cons kv0 t ih =>
    obtain ⟨k0, v0⟩ := kv0
    intro kv hkv
    by_cases h0 : k0 = k
    · subst h0
      simp [alApp] at hkv
      rcases hkv with hkv | hkv
      · subst hkv
        refine ⟨(hm (k0, v0) (by simp)).1, ?_⟩
        intro x hx
        simp at hx
        rcases hx with hx | hx
        · exact (hm (k0, v0) (by simp)).2 x hx
        · exact hx ▸ he
      · exact hm kv (by simp [hkv])
    · simp [alApp, h0] at hkv
      rcases hkv with hkv | hkv
      · subst hkv
        exact hm (k0, v0) (by simp)
      · exact ih (fun kv' hkv' => hm kv' (by simp [hkv'])) kv hkv

/-- The keys of a bucket map all satisfying `Q` exclude any key violating it. -/
theorem alMem_eq_false_of_keys {κ α : Type} [DecidableEq κ] (Q : κ → Prop)
    (m : List (κ × List α)) (k : κ) (hm : ∀ kv ∈ m, Q kv.1) (hk : ¬ Q k) :
    alMem m k = false := by
  induction m with
  | nil => simp [alMem]
  | cons kv0 t ih =>
    obtain ⟨k0, v0⟩ := kv0
    have h0 : k0 ≠ k := fun h => hk (h ▸ hm (k0, v0) (by simp))
    simp [alMem, h0]
    exact ih (fun kv' hkv' => hm kv' (by simp [hkv']))

/-- C9: given an index built by `add_file` containing only `b.txt`, and a query
file `a.txt` of the same size with identical content but a different name,
`find_potential_duplicates` returns exactly the one candidate `b.txt` when
hashing is enabled, and zero candidates when hashing is disabled. -/
theorem c9_hash_vs_name_matcher :
    findPotentialDuplicates exIdx9Hash exFs9 exAPath =
      [⟨[[100], strBytes "b.txt"], 2, 11, hashFn [7, 8]⟩] ∧
    findPotentialDuplicates exIdx9Name exFs9 exAPath = [] := by
  constructor
  · decide
  · decide

/-- C2 (code evaluation at the failing input): the minimal version-1 stream
`exStreamV1` encodes exactly one file element (and one directory element), yet
`load_from_caf` reports `total_files = 2` and places the file in two distinct
size buckets — once with its raw stored size 7 (legacy adding loop) and once
with the 1024 placeholder (general adding loop) — contradicting the claim that
each encoded file appears exactly once and that `total_files` equals the
number of file elements. -/
theorem c2_legacy_double_add :
    (loadFromCaf exStreamV1 false exMd5).map
        (fun i => (i.totalFiles, i.sizeIndex)) =
      some (2,
        [(7, [⟨[[100], [102]], 7, 5, []⟩]),
         (1024, [⟨[[100], [102]], 1024, 5, []⟩])]) := by
  decide

/-- C3 is falsified at `exStreamC3Bad`: a version-8 stream whose directory
element with id 2 precedes its parent (id 1) decodes with its file skipped
(`total_files = 0`, empty size index) — the resolution pass is not repeated to
a fixed point, so a directory whose parent element appears later is never
resolved and its files are not emitted. -/
theorem c3_modern_resolution_not_fixed_point :
    (loadFromCaf exStreamC3Bad false exMd5).map
        (fun i => (i.totalFiles, i.sizeIndex)) = some (0, []) := by
  decide

/-- C3 (amended): for version ≥ 7 streams the pass setting
`map[dir_id] = map[parent_id] / name` runs exactly once over the elements in
order, so a directory is resolved only when its parent element precedes it
(as in `exStreamC3Good`, whose file is emitted with its fully resolved path);
with the same elements reordered so that the child directory precedes its
parent (`exStreamC3Bad`), the directory stays unresolved and its file is
silently dropped. Only the version ≤ 6 path repeats passes to a fixed point. -/
theorem c3_modern_single_pass_resolution :
    (loadFromCaf exStreamC3Good false exMd5).map
        (fun i => (i.totalFiles, i.sizeIndex)) =
      some (1, [(3, [⟨[[114], [97], [98], [102]], 3, 5, []⟩])]) ∧
    (loadFromCaf exStreamC3Bad false exMd5).map
        (fun i => (i.totalFiles, i.sizeIndex)) = some (0, []) := by
  constructor
  · decide
  · decide

/-- C4 is falsified at `exStreamV8`: decoding with `use_hash = true` leaves the
`(size, hash)` mapping empty even though the decoded file `/r/e/f` exists on
the filesystem `exFsV8`, and a subsequent hash-mode single-file lookup for `/q`
(a file with identical content and size) returns no matches. -/
theorem c4_load_does_not_populate_hash_index :
    (loadFromCaf exStreamV8 true exMd5).map (fun i => i.hashIndex) = some [] ∧
    (loadFromCaf exStreamV8 true exMd5).map (fun i => i.totalFiles) = some 1 ∧
    pathExists exFsV8 [[114], [101], [102]] = true ∧
    (loadFromCaf exStreamV8 true exMd5).map
      (fun i => findPotentialDuplicates i exFsV8 [[113]]) = some [] := by
  refine ⟨by decide, by decide, by decide, by decide⟩

/-- C1 (code evaluation at the failing input): the index `exIdx1` holds the one
file `r/a/b/f.txt` with positive size and a Latin-1 name, and every directory
exists on `exFs1`; yet `save_to_caf` never writes a directory element for
`r/a/b` (its parent `r/a` is no entry's parent directory, so the id lookup
raises `KeyError`), and decoding the written stream yields an index with zero
files instead of a logically equal entry set. -/
theorem c1_roundtrip_drops_deep_files :
    exIdx1.totalFiles = 1 ∧
    (loadFromCaf (saveToCaf exIdx1 exFs1 0 exEnc0) false exMd5).map
        (fun i => (i.totalFiles, i.sizeIndex, i.rootPath)) =
      some (0, [], [[114]]) := by
  constructor
  · decide
  · decide

/-- C5 is falsified at `exDestDead`/`exFsC5`: the destination index holds one
entry whose file is gone from the filesystem and whose recorded hash differs
from the query's; the bulk matcher reports the source file `s/a.txt` as
duplicated (missing destination files count as matches with an empty hash),
while the single-file lookup on the same file returns no matches (its
`(size, hash)` bucket is empty) — the two match sets differ. -/
theorem c5_bulk_single_divergence :
    findAllDuplicatesBulk exFsC5 exSrcC5 exDestDead =
      [⟨exAPath, [⟨[[100], strBytes "b.txt"], 2, 11, []⟩]⟩] ∧
    findPotentialDuplicates exDestDead exFsC5 exAPath = [] := by
  constructor
  · decide
  · decide

/-- C6 is falsified at `exStreamV5`: on a minimal version-5 stream (which has no
archive field) the full decoder reads directory-0 file count 1, while
`get_index_info` — which skips a two-byte archive field unconditionally —
reads its directory count and file count from desynchronized offsets and
reports file count 33619968. -/
theorem c6_catalog_desync_v5 :
    loadFromCafDir0 exStreamV5 exF64Zero = some (1, 0) ∧
    (getIndexInfo exStreamV5 exF64Zero).map (·.fileCount) = some 33619968 ∧
    (33619968 : Int) ≠ 1 := by
  refine ⟨by decide, by decide, by decide⟩

/-- Application rule for `skipB` (a bare `read(n)` always succeeds). -/
theorem skipB_apply (n : Nat) (s : List Nat) : skipB n s = some ((), s.drop n) := rfl

/-- Application rule for `readStrP`. -/
theorem readStrP_apply (s : List Nat) : readStrP s = some (readStrGo s) := rfl

/-- A successful header parse starts with a successful magic/version parse
yielding the same version. -/
theorem parseCafThroughDirs_version (s : List Nat) (v : Int) (dev : Str)
    (di : List (Int × List Nat)) (rest : List Nat)
    (h : parseCafThroughDirs s = some ((v, dev, di), rest)) :
    ∃ r', parseMagicVersion s = some (v, r') := by
  unfold parseCafThroughDirs at h
  rw [parseBind_apply] at h
  cases hm : parseMagicVersion s with
  | none => rw [hm] at h; exact absurd h (by simp)
  | some a =>
    obtain ⟨v0, r0⟩ := a
    rw [hm] at h
    refine ⟨r0, ?_⟩
    have hv : v = v0 := by
      simp only [parseBind_apply, pguard_apply, skipB_apply, readStrP_apply,
        parsePure_apply] at h
      split_ifs at h <;>
        simp only [parseBind_apply, pguard_apply, skipB_apply, readStrP_apply,
          parsePure_apply] at h <;>
        (repeat' (split at h)) <;> simp_all
    rw [hv]

/-- A successful full parse declares the version `cafVersionOf` reports. -/
theorem parseCafAll_version (s : List Nat) (v : Int) (dev : Str) (elems : List RawElm)
    (rest : List Nat) (h : parseCafAll s = some ((v, dev, elems), rest)) :
    cafVersionOf s = some v := by
  unfold parseCafAll at h
  rw [parseBind_apply] at h
  cases ht : parseCafThroughDirs s with
  | none => rw [ht] at h; exact absurd h (by simp)
  | some r =>
    obtain ⟨⟨v0, dev0, di0⟩, r0⟩ := r
    rw [ht] at h
    have hv0 : v = v0 := by
      simp only [parseBind_apply, parsePure_apply] at h
      (repeat' (split at h)) <;> simp_all
    obtain ⟨r', hr'⟩ := parseCafThroughDirs_version s v0 dev0 di0 r0 ht
    rw [hv0]
    unfold cafVersionOf
    rw [hr']
    rfl

/-- The general file-adding loop never touches the hash index, the hashing
flag, the root or the algorithm. -/
theorem generalAddGo_immutable (v : Int) (refs : List Nat) (dmap : DirMap) :
    ∀ es i idx, (generalAddGo v refs dmap i es idx).hashIndex = idx.hashIndex ∧
      (generalAddGo v refs dmap i es idx).useHash = idx.useHash ∧
      (generalAddGo v refs dmap i es idx).rootPath = idx.rootPath ∧
      (generalAddGo v refs dmap i es idx).hashAlgo = idx.hashAlgo := by
  intro es
  induction es with
  | nil => intro i idx; simp [generalAddGo]
  | cons e t ih =>
    intro i idx
    simp only [generalAddGo]
    (repeat' split) <;> simp [ih]

/-- The legacy file-adding loop never touches the hash index, the hashing flag,
the root or the algorithm. -/
theorem legacyAddFiles_immutable (refs : List Nat) (dmap : DirMap) :
    ∀ es i idx c, (legacyAddFiles refs dmap i es idx c).1.hashIndex = idx.hashIndex ∧
      (legacyAddFiles refs dmap i es idx c).1.useHash = idx.useHash ∧
      (legacyAddFiles refs dmap i es idx c).1.rootPath = idx.rootPath ∧
      (legacyAddFiles refs dmap i es idx c).1.hashAlgo = idx.hashAlgo := by
  intro es
  induction es with
  | nil => intro i idx c; simp [legacyAddFiles]
  | cons e t ih =>
    intro i idx c
    simp only [legacyAddFiles]
    (repeat' split) <;> simp [ih]

/-- Every index produced by `load_from_caf` has an empty hash index and the
requested hashing flag. -/
theorem loadFromCaf_fields (s : List Nat) (u : Bool) (a : Str) (i : FileIndex)
    (h : loadFromCaf s u a = some i) :
    i.hashIndex = [] ∧ i.useHash = u := by
  unfold loadFromCaf at h
  cases hp : parseCafAll s with
  | none => rw [hp] at h; exact absurd h (by simp)
  | some r =>
    obtain ⟨⟨v, dev, elems⟩, rest⟩ := r
    rw [hp] at h
    simp only [Option.some.injEq] at h
    subst h
    unfold buildFromElems
    split
    · refine ⟨?_, ?_⟩
      · rw [(generalAddGo_immutable _ _ _ _ _ _).1]
        exact (legacyAddFiles_immutable _ _ _ _ _ _).1
      · rw [(generalAddGo_immutable _ _ _ _ _ _).2.1]
        exact (legacyAddFiles_immutable _ _ _ _ _ _).2.1
    · exact ⟨(generalAddGo_immutable _ _ _ _ _ _).1,
        (generalAddGo_immutable _ _ _ _ _ _).2.1⟩

/-- A hash-mode lookup against an index with an empty hash index finds nothing. -/
theorem findPotentialDuplicates_of_hash_nil (idx : FileIndex) (fs : Fs) (p : CPath)
    (hh : idx.hashIndex = []) (hu : idx.useHash = true) :
    findPotentialDuplicates idx fs p = [] := by
  unfold findPotentialDuplicates
  cases hsp : fsStat fs p with
  | none => rfl
  | some n =>
    split
    · rfl
    · rw [hu]
      simp only [if_true]
      split
      · rfl
      · simp [hh, alGet]

/-- C4 (amended): `load_from_caf` populates only the size mapping. For every
successful decode — whatever the stream, even with `use_hash = true` — the
`(size, hash)` mapping of the returned index is empty, and consequently every
subsequent hash-mode single-file lookup against the loaded index returns no
matches regardless of the filesystem; the decoder performs no hashing at all
(only the uncalled legacy loader `load_from_caf_old` populates the hash
mapping). -/
theorem c4_load_hash_index_empty (s : List Nat) (u : Bool) (a : Str) (i : FileIndex)
    (h : loadFromCaf s u a = some i) :
    i.hashIndex = [] ∧ (u = true → ∀ fs p, findPotentialDuplicates i fs p = []) := by
  obtain ⟨hh, hu⟩ := loadFromCaf_fields s u a i h
  exact ⟨hh, fun ht fs p => findPotentialDuplicates_of_hash_nil i fs p hh (hu.trans ht)⟩

/-- Witness for the amended C4 at the concrete stream `exStreamV8`. -/
theorem c4_load_hash_index_empty_witness :
    ((loadFromCaf exStreamV8 true exMd5).getD (initIndex [] false [])).hashIndex = [] ∧
      (true = true → ∀ fs p, findPotentialDuplicates
        ((loadFromCaf exStreamV8 true exMd5).getD (initIndex [] false [])) fs p = []) :=
  c4_load_hash_index_empty exStreamV8 true exMd5 _ (by decide)

/-- The modern-version adding loop preserves the positivity of every bucket key
and of every stored entry size. -/
theorem generalAddGo_size_pos (v : Int) (refs : List Nat) (dmap : DirMap) (hv : ¬ v ≤ 6) :
    ∀ es i idx,
      (∀ kv ∈ idx.sizeIndex, (1 : Int) ≤ kv.1 ∧ ∀ e ∈ kv.2, (1 : Int) ≤ e.size) →
      ∀ kv ∈ (generalAddGo v refs dmap i es idx).sizeIndex,
        (1 : Int) ≤ kv.1 ∧ ∀ e ∈ kv.2, (1 : Int) ≤ e.size := by
  intro es
  induction es with
  | nil => intro i idx hidx; simpa [generalAddGo] using hidx
  | cons e t ih =>
    intro i idx hidx
    simp only [generalAddGo]
    (repeat' split) <;>
      first
        | exact ih _ _ hidx
        | exact ih _ _ (alApp_inv (fun k => (1 : Int) ≤ k)
            (fun e : FileEntry => (1 : Int) ≤ e.size) _ _ _ hidx
            (by exact le_max_right _ _) (by exact le_max_right _ _))

/-- C10: every successful `load_from_caf` decode of a version ≥ 7 stream yields
an index whose size buckets all carry keys ≥ 1 and entries of size ≥ 1 (the
decoder clamps the stored size with `max(size, 1)`), the index has no size-0
bucket, and a 0-byte query file can never size-match it. -/
theorem c10_modern_sizes_positive (s : List Nat) (u : Bool) (a : Str) (v : Int)
    (i : FileIndex) (hv : cafVersionOf s = some v) (h7 : 7 ≤ v)
    (h : loadFromCaf s u a = some i) :
    (∀ kv ∈ i.sizeIndex, (1 : Int) ≤ kv.1 ∧ ∀ e ∈ kv.2, (1 : Int) ≤ e.size) ∧
    alMem i.sizeIndex (0 : Int) = false ∧
    (∀ fs p n, fsStat fs p = some n → nodeSize n = 0 →
      findPotentialDuplicates i fs p = []) := by
  unfold loadFromCaf at h
  cases hp : parseCafAll s with
  | none => rw [hp] at h; exact absurd h (by simp)
  | some r =>
    obtain ⟨⟨v', dev, elems⟩, rest⟩ := r
    rw [hp] at h
    simp only [Option.some.injEq] at h
    subst h
    have hvv : v = v' := by
      have h2 := parseCafAll_version s v' dev elems rest hp
      rw [hv] at h2
      simpa using h2
    have h7' : 7 ≤ v' := hvv ▸ h7
    have hv6 : ¬ v' ≤ 6 := by omega
    have h1 : ∀ kv ∈ (buildFromElems v' u a (decodeRootPath dev) elems).sizeIndex,
        (1 : Int) ≤ kv.1 ∧ ∀ e ∈ kv.2, (1 : Int) ≤ e.size := by
      unfold buildFromElems
      rw [if_neg hv6]
      exact generalAddGo_size_pos v' _ _ hv6 elems 0 _ (by simp [initIndex])
    refine ⟨h1, ?_, ?_⟩
    · exact alMem_eq_false_of_keys (fun k => (1 : Int) ≤ k) _ _
        (fun kv hkv => (h1 kv hkv).1) (by norm_num)
    · intro fs p n hst hs0
      have hm : alMem (buildFromElems v' u a (decodeRootPath dev) elems).sizeIndex
          ((nodeSize n : Int)) = false := by
        rw [hs0]
        exact alMem_eq_false_of_keys (fun k => (1 : Int) ≤ k) _ _
          (fun kv hkv => (h1 kv hkv).1) (by norm_num)
      unfold findPotentialDuplicates
      rw [hst]
      simp [hm]

/-- Witness for C10 at `exStreamV8Size0` (a version-8 stream encoding size 0). -/
theorem c10_modern_sizes_positive_witness :
    (∀ kv ∈ ((loadFromCaf exStreamV8Size0 false exMd5).getD (initIndex [] false [])).sizeIndex,
      (1 : Int) ≤ kv.1 ∧ ∀ e ∈ kv.2, (1 : Int) ≤ e.size) ∧
    alMem ((loadFromCaf exStreamV8Size0 false exMd5).getD (initIndex [] false [])).sizeIndex
      (0 : Int) = false ∧
    (∀ fs p n, fsStat fs p = some n → nodeSize n = 0 →
      findPotentialDuplicates
        ((loadFromCaf exStreamV8Size0 false exMd5).getD (initIndex [] false [])) fs p = []) :=
  c10_modern_sizes_positive exStreamV8Size0 false exMd5 8 _ (by decide) (by decide) (by decide)

/-- A bad magic word makes the loader fail with `None`. -/
theorem loadFromCaf_none_of_bad_magic (s : List Nat) (u : Bool) (a : Str) (m : Nat)
    (r : List Nat) (hr : readU 4 s = some (m, r)) (hbad : ¬ magicOk m) :
    loadFromCaf s u a = none := by
  have hbad' : ¬ (0 < m ∧ m % ulModus = ulMagicBase) := fun hc => hbad hc
  have hm : parseMagicVersion s = none := by
    unfold parseMagicVersion
    simp only [parseBind_apply, hr, pguard_apply]
    rw [if_neg hbad']
  have ht : parseCafThroughDirs s = none := by
    unfold parseCafThroughDirs
    simp only [parseBind_apply, hm]
  have hall : parseCafAll s = none := by
    unfold parseCafAll
    simp only [parseBind_apply, ht]
  simp only [loadFromCaf, hall]

/-- An unsupported declared version makes the loader fail with `None`. -/
theorem loadFromCaf_none_of_version_gt (s : List Nat) (u : Bool) (a : Str) (v : Int)
    (hv : cafVersionOf s = some v) (hbig : saveVersion < v) :
    loadFromCaf s u a = none := by
  unfold cafVersionOf at hv
  cases hmv : parseMagicVersion s with
  | none => rw [hmv] at hv; exact absurd hv (by simp)
  | some r0 =>
    obtain ⟨v0, r⟩ := r0
    rw [hmv] at hv
    simp at hv
    have hv0 : v0 = v := hv
    subst hv0
    have ht : parseCafThroughDirs s = none := by
      unfold parseCafThroughDirs
      simp only [parseBind_apply, hmv, pguard_apply]
      rw [if_neg (by omega)]
    have hall : parseCafAll s = none := by
      unfold parseCafAll
      simp only [parseBind_apply, ht]
    simp only [loadFromCaf, hall]

/-- C7: structural decode failures return `None` and leave no partial index:
a magic word failing the congruence test fails the whole load, a declared
version above 8 fails the whole load, and a stream truncated before a
fixed-width field fails the whole load; whereas per-element resolution
failures only skip the offending element — in `exStreamSkip` the element with
the dangling parent id 5 and the element with the blank name are dropped while
the two well-formed file elements are still decoded. -/
theorem c7_failure_semantics :
    (∀ s u a m r, readU 4 s = some (m, r) → ¬ magicOk m → loadFromCaf s u a = none) ∧
    (∀ s u a v, cafVersionOf s = some v → saveVersion < v → loadFromCaf s u a = none) ∧
    loadFromCaf exStreamTrunc false exMd5 = none ∧
    (loadFromCaf exStreamSkip false exMd5).map (fun i => (i.totalFiles, i.sizeIndex)) =
      some (2, [(4, [⟨[[114], [103]], 4, 1, []⟩]), (6, [⟨[[114], [105]], 6, 4, []⟩])]) := by
  refine ⟨?_, ?_, by decide, by decide⟩
  · intro s u a m r hr hbad
    exact loadFromCaf_none_of_bad_magic s u a m r hr hbad
  · intro s u a v hv hbig
    exact loadFromCaf_none_of_version_gt s u a v hv hbig

/-- Witness for C7: a zero magic word and an explicit version 9 each make the
loader return `None`. -/
theorem c7_failure_semantics_witness :
    loadFromCaf [0, 0, 0, 0] false exMd5 = none ∧
    loadFromCaf exStreamV9 false exMd5 = none :=
  ⟨c7_failure_semantics.1 [0, 0, 0, 0] false exMd5 0 [] (by decide) (by decide),
   c7_failure_semantics.2.1 exStreamV9 false exMd5 9 (by decide) (by decide)⟩

/-- A member of some bucket after an append was already a member or is the appended element. -/
theorem memBuckets_alApp {κ α : Type} [DecidableEq κ] (e x : α) (m : List (κ × List α))
    (k : κ) (h : memBuckets e (alApp m k x)) : memBuckets e m ∨ e = x := by
  induction m with
  | nil =>
    obtain ⟨kv, hkv, he⟩ := h
    simp [alApp] at hkv
    subst hkv
    simp at he
    exact Or.inr he
  | cons kv0 t ih =>
    obtain ⟨k0, v0⟩ := kv0
    obtain ⟨kv, hkv, he⟩ := h
    by_cases h0 : k0 = k
    · subst h0
      simp [alApp] at hkv
      rcases hkv with hkv | hkv
      · subst hkv
        simp at he
        rcases he with he | he
        · exact Or.inl ⟨(k0, v0), by simp, he⟩
        · exact Or.inr he
      · exact Or.inl ⟨kv, by simp [hkv], he⟩
    · simp [alApp, h0] at hkv
      rcases hkv with hkv | hkv
      · subst hkv
        exact Or.inl ⟨(k0, v0), by simp, he⟩
      · rcases ih ⟨kv, hkv, he⟩ with hm | hx
        · obtain ⟨kv', hkv', he'⟩ := hm
          exact Or.inl ⟨kv', by simp [hkv'], he'⟩
        · exact Or.inr hx

/-- A member of some bucket after an extension was already a member or comes from the added list. -/
theorem memBuckets_alExtend {κ α : Type} [DecidableEq κ] (e : α) (m : List (κ × List α))
    (k : κ) (vs : List α) (h : memBuckets e (alExtend m k vs)) : memBuckets e m ∨ e ∈ vs := by
  induction m with
  | nil =>
    obtain ⟨kv, hkv, he⟩ := h
    simp [alExtend] at hkv
    subst hkv
    exact Or.inr he
  | cons kv0 t ih =>
    obtain ⟨k0, v0⟩ := kv0
    obtain ⟨kv, hkv, he⟩ := h
    by_cases h0 : k0 = k
    · subst h0
      simp [alExtend] at hkv
      rcases hkv with hkv | hkv
      · subst hkv
        simp at he
        rcases he with he | he
        · exact Or.inl ⟨(k0, v0), by simp, he⟩
        · exact Or.inr he
      · exact Or.inl ⟨kv, by simp [hkv], he⟩
    · simp [alExtend, h0] at hkv
      rcases hkv with hkv | hkv
      · subst hkv
        exact Or.inl ⟨(k0, v0), by simp, he⟩
      · rcases ih ⟨kv, hkv, he⟩ with hm | hx
        · obtain ⟨kv', hkv', he'⟩ := hm
          exact Or.inl ⟨kv', by simp [hkv'], he'⟩
        · exact Or.inr hx

/-- A member of some bucket after merging bucket maps comes from one of the two maps. -/
theorem memBuckets_alExtendAll {κ α : Type} [DecidableEq κ] (e : α) :
    ∀ (src m : List (κ × List α)), memBuckets e (alExtendAll m src) →
      memBuckets e m ∨ memBuckets e src := by
  intro src
  induction src with
  | nil => intro m h; exact Or.inl h
  | cons kv0 t ih =>
    intro m h
    rcases ih (alExtend m kv0.1 kv0.2) h with hm | hs
    · rcases memBuckets_alExtend e m kv0.1 kv0.2 hm with hm' | hx
      · exact Or.inl hm'
      · exact Or.inr ⟨kv0, by simp, hx⟩
    · obtain ⟨kv, hkv, he⟩ := hs
      exact Or.inr ⟨kv, by simp [hkv], he⟩

/-- Appending preserves bucket membership. -/
theorem alGet_alApp_mono {κ α : Type} [DecidableEq κ] (e x : α) (m : List (κ × List α))
    (k k' : κ) (h : e ∈ alGet m k') : e ∈ alGet (alApp m k x) k' := by
  rw [alGet_alApp]
  split <;> simp [h]

/-- The appended element lands in its own bucket. -/
theorem alGet_alApp_self {κ α : Type} [DecidableEq κ] (x : α) (m : List (κ × List α))
    (k : κ) : x ∈ alGet (alApp m k x) k := by
  rw [alGet_alApp]
  simp

/-- Extending preserves bucket membership. -/
theorem alGet_alExtend_mono {κ α : Type} [DecidableEq κ] (e : α) (m : List (κ × List α))
    (k k' : κ) (vs : List α) (h : e ∈ alGet m k') : e ∈ alGet (alExtend m k vs) k' := by
  rw [alGet_alExtend]
  split <;> simp [h]

/-- Merging preserves bucket membership of the base map. -/
theorem alGet_alExtendAll_mono {κ α : Type} [DecidableEq κ] (e : α) :
    ∀ (src m : List (κ × List α)) (k : κ), e ∈ alGet m k →
      e ∈ alGet (alExtendAll m src) k := by
  intro src
  induction src with
  | nil => intro m k h; exact h
  | cons kv0 t ih =>
    intro m k h
    exact ih (alExtend m kv0.1 kv0.2) k (alGet_alExtend_mono e m kv0.1 k kv0.2 h)

/-- Every element of a source bucket appears in the merged bucket of that key. -/
theorem alGet_alExtendAll_src {κ α : Type} [DecidableEq κ] (e : α) :
    ∀ (src m : List (κ × List α)) (kv : κ × List α), kv ∈ src → e ∈ kv.2 →
      e ∈ alGet (alExtendAll m src) kv.1 := by
  intro src
  induction src with
  | nil => intro m kv hkv; simp at hkv
  | cons kv0 t ih =>
    intro m kv hkv he
    rcases List.mem_cons.mp hkv with hkv | hkv
    · subst hkv
      refine alGet_alExtendAll_mono e t (alExtend m kv.1 kv.2) kv.1 ?_
      rw [alGet_alExtend]
      simp [he]
    · exact ih (alExtend m kv0.1 kv0.2) kv hkv he


/-- `add_file` equation: a failed `stat` changes nothing. -/
theorem addFile_eq_none (fs : Fs) (idx : FileIndex) (p : CPath)
    (hstat : fsStat fs p = none) : addFile fs idx p = (false, idx) := by
  simp [addFile, hstat]

/-- `add_file` equation: a non-regular file changes nothing. -/
theorem addFile_eq_notreg (fs : Fs) (idx : FileIndex) (p : CPath) (n : FsNode)
    (hstat : fsStat fs p = some n) (hreg : isRegular n = false) :
    addFile fs idx p = (false, idx) := by
  simp [addFile, hstat, hreg]

/-- `add_file` equation: an unhashable file changes nothing in hashing mode. -/
theorem addFile_eq_hashfail (fs : Fs) (idx : FileIndex) (p : CPath) (n : FsNode)
    (hstat : fsStat fs p = some n) (hreg : isRegular n = true)
    (hu : idx.useHash = true) (hh : calcHash fs p = []) :
    addFile fs idx p = (false, idx) := by
  simp [addFile, hstat, hreg, hu, hh]

/-- `add_file` equation: a regular hashable file is appended to both mappings in hashing mode. -/
theorem addFile_eq_add_hash (fs : Fs) (idx : FileIndex) (p : CPath) (n : FsNode)
    (hstat : fsStat fs p = some n) (hreg : isRegular n = true)
    (hu : idx.useHash = true) (hh : calcHash fs p ≠ []) :
    addFile fs idx p = (true, { idx with
      sizeIndex := alApp idx.sizeIndex ((nodeSize n : Int))
        ⟨p, (nodeSize n : Int), nodeMtime n, calcHash fs p⟩
      hashIndex := alApp idx.hashIndex (((nodeSize n : Int)), calcHash fs p)
        ⟨p, (nodeSize n : Int), nodeMtime n, calcHash fs p⟩
      totalFiles := idx.totalFiles + 1 }) := by
  simp [addFile, hstat, hreg, hu, hh]

/-- `add_file` equation: a regular file is appended to the size mapping only when hashing is off. -/
theorem addFile_eq_add_nohash (fs : Fs) (idx : FileIndex) (p : CPath) (n : FsNode)
    (hstat : fsStat fs p = some n) (hreg : isRegular n = true)
    (hu : idx.useHash = false) :
    addFile fs idx p = (true, { idx with
      sizeIndex := alApp idx.sizeIndex ((nodeSize n : Int))
        ⟨p, (nodeSize n : Int), nodeMtime n, []⟩
      totalFiles := idx.totalFiles + 1 }) := by
  simp [addFile, hstat, hreg, hu]

/-- `add_file` preserves the size-bucket invariant. -/
theorem addFile_hash_in_size (fs : Fs) (idx : FileIndex) (p : CPath)
    (hinv : ∀ e, memBuckets e idx.hashIndex → e ∈ alGet idx.sizeIndex e.size) :
    ∀ e, memBuckets e (addFile fs idx p).2.hashIndex →
      e ∈ alGet (addFile fs idx p).2.sizeIndex e.size := by
  intro e he
  cases hstat : fsStat fs p with
  | none =>
    rw [addFile_eq_none fs idx p hstat] at he ⊢
    exact hinv e he
  | some n =>
    cases hreg : isRegular n with
    | false =>
      rw [addFile_eq_notreg fs idx p n hstat hreg] at he ⊢
      exact hinv e he
    | true =>
      cases hu : idx.useHash with
      | false =>
        rw [addFile_eq_add_nohash fs idx p n hstat hreg hu] at he ⊢
        exact alGet_alApp_mono _ _ _ _ _ (hinv e he)
      | true =>
        by_cases hh : calcHash fs p = []
        · rw [addFile_eq_hashfail fs idx p n hstat hreg hu hh] at he ⊢
          exact hinv e he
        · rw [addFile_eq_add_hash fs idx p n hstat hreg hu hh] at he ⊢
          rcases memBuckets_alApp _ _ _ _ he with hm | hx
          · exact alGet_alApp_mono _ _ _ _ _ (hinv e hm)
          · subst hx
            exact alGet_alApp_self _ _ _

/-- Merge equation with hashing on. -/
theorem mergeIndex_eq_hash (i j : FileIndex) (hu : i.useHash = true) :
    mergeIndex i j = { i with
      sizeIndex := alExtendAll i.sizeIndex j.sizeIndex
      hashIndex := alExtendAll i.hashIndex j.hashIndex
      totalFiles := i.totalFiles + j.totalFiles } := by
  simp [mergeIndex, hu]

/-- Merge equation with hashing off. -/
theorem mergeIndex_eq_nohash (i j : FileIndex) (hu : i.useHash = false) :
    mergeIndex i j = { i with
      sizeIndex := alExtendAll i.sizeIndex j.sizeIndex
      totalFiles := i.totalFiles + j.totalFiles } := by
  simp [mergeIndex, hu]

/-- Merging preserves the size-bucket invariant. -/
theorem mergeIndex_hash_in_size (i j : FileIndex)
    (h1 : ∀ e, memBuckets e i.hashIndex → e ∈ alGet i.sizeIndex e.size)
    (h2 : ∀ e, memBuckets e j.hashIndex → e ∈ alGet j.sizeIndex e.size) :
    ∀ e, memBuckets e (mergeIndex i j).hashIndex →
      e ∈ alGet (mergeIndex i j).sizeIndex e.size := by
  intro e he
  cases hu : i.useHash with
  | false =>
    rw [mergeIndex_eq_nohash i j hu] at he ⊢
    exact alGet_alExtendAll_mono e _ _ _ (h1 e he)
  | true =>
    rw [mergeIndex_eq_hash i j hu] at he ⊢
    rcases memBuckets_alExtendAll e _ _ he with hm | hm
    · exact alGet_alExtendAll_mono e _ _ _ (h1 e hm)
    · have hj := h2 e hm
      obtain ⟨kv, hkv, hk, he2⟩ := alGet_mem_exists _ _ _ hj
      have h3 := alGet_alExtendAll_src e j.sizeIndex i.sizeIndex kv hkv he2
      rw [hk] at h3
      exact h3

/-- Every reachable index satisfies the size-bucket invariant, membership form. -/
theorem reach_hash_in_size (i : FileIndex) (h : Reach i) :
    ∀ e, memBuckets e i.hashIndex → e ∈ alGet i.sizeIndex e.size := by
  induction h with
  | init root u a => intro e he; obtain ⟨kv, hkv, _⟩ := he; simp [initIndex] at hkv
  | add fs p hr ih => exact addFile_hash_in_size fs _ p ih
  | load s u a hl =>
    intro e he
    have hh := (loadFromCaf_fields s u a _ hl).1
    rw [hh] at he
    obtain ⟨kv, hkv, _⟩ := he
    simp at hkv
  | merge h1 h2 ih1 ih2 => exact mergeIndex_hash_in_size _ _ ih1 ih2

/-- C8: for every BucketedIndex reachable by any sequence of `add_file` calls,
`load_from_caf` loads and `build_destination_index` merges, every FileEntry
appearing in any `(size, hash)` bucket of the hash mapping also appears in the
size-mapping bucket keyed by its own size. -/
theorem c8_size_bucket_invariant (i : FileIndex) (h : Reach i) : SizeBucketInv i := by
  intro k e he
  obtain ⟨kv, hkv, _, he'⟩ := alGet_mem_exists _ _ _ he
  exact reach_hash_in_size i h e ⟨kv, hkv, he'⟩

/-- Witness for C8 at the freshly constructed empty index. -/
theorem c8_size_bucket_invariant_witness : SizeBucketInv (initIndex [[114]] true exMd5) :=
  c8_size_bucket_invariant (initIndex [[114]] true exMd5) (Reach.init [[114]] true exMd5)



/-- A bucket-level invariant survives an append when it survives growth and holds for a fresh bucket. -/
theorem alApp_bucket_inv {κ α : Type} [DecidableEq κ] (P : κ → List α → Prop)
    (m : List (κ × List α)) (k : κ) (e : α)
    (hm : ∀ kv ∈ m, P kv.1 kv.2) (hnew : P k [e])
    (hgrow : ∀ v, P k v → P k (v ++ [e])) :
    ∀ kv ∈ alApp m k e, P kv.1 kv.2 := by
  induction m with
  | nil =>
    intro kv hkv
    simp [alApp] at hkv
    subst hkv
    exact hnew
  | cons kv0 t ih =>
    obtain ⟨k0, v0⟩ := kv0
    intro kv hkv
    by_cases h0 : k0 = k
    · subst h0
      simp [alApp] at hkv
      rcases hkv with hkv | hkv
      · subst hkv
        exact hgrow v0 (hm (k0, v0) (by simp))
      · exact hm kv (by simp [hkv])
    · simp [alApp, h0] at hkv
      rcases hkv with hkv | hkv
      · subst hkv
        exact hm (k0, v0) (by simp)
      · exact ih (fun kv' hkv' => hm kv' (by simp [hkv'])) kv hkv

/-- `add_file` preserves the built-index invariant. -/
theorem addFile_builtInv (fs : Fs) (u : Bool) (idx : FileIndex) (p : CPath)
    (hinv : BuiltInv fs u idx) : BuiltInv fs u (addFile fs idx p).2 := by
  obtain ⟨hu, hsz, hhi⟩ := hinv
  cases hstat : fsStat fs p with
  | none => rw [addFile_eq_none fs idx p hstat]; exact ⟨hu, hsz, hhi⟩
  | some n =>
    cases hreg : isRegular n with
    | false => rw [addFile_eq_notreg fs idx p n hstat hreg]; exact ⟨hu, hsz, hhi⟩
    | true =>
      obtain ⟨c, mm, hn⟩ : ∃ c mm, n = FsNode.file c mm := by
        cases n with
        | file c mm => exact ⟨c, mm, rfl⟩
        | dir mm => simp [isRegular] at hreg
      subst hn
      have hch : calcHash fs p = hashFn c := by simp [calcHash, hstat]
      rcases Bool.eq_false_or_eq_true u with hub | hub
      · subst hub
        have hne : calcHash fs p ≠ [] := by rw [hch]; simp [hashFn]
        rw [addFile_eq_add_hash fs idx p _ hstat hreg hu hne]
        have hEok : EntryOk fs true ((nodeSize (FsNode.file c mm) : Int))
            ⟨p, ((nodeSize (FsNode.file c mm) : Int)), nodeMtime (FsNode.file c mm),
              calcHash fs p⟩ :=
          ⟨rfl, c, mm, hstat, by simp [nodeSize], by simp [nodeMtime], by simp [hch]⟩
        refine ⟨hu, ?_, ?_⟩
        · refine alApp_bucket_inv
            (fun k v => v ≠ [] ∧ ∀ e ∈ v, EntryOk fs true k e) _ _ _ hsz ?_ ?_
          · refine ⟨by simp, ?_⟩
            intro e he
            simp at he
            subst he
            exact hEok
          · rintro v ⟨hvne, hv⟩
            refine ⟨by simp, ?_⟩
            intro e he
            rcases List.mem_append.mp he with he | he
            · exact hv e he
            · simp at he
              subst he
              exact hEok
        · intro _ s h
          show alGet (alApp idx.hashIndex _ _) (s, h) = _
          rw [alGet_alApp, alGet_alApp]
          by_cases hks : ((nodeSize (FsNode.file c mm) : Int)) = s
          · subst hks
            by_cases hkh : calcHash fs p = h
            · subst hkh
              rw [if_pos rfl, if_pos rfl]
              rw [List.filter_append]
              rw [hhi rfl _ (calcHash fs p)]
              simp
            · rw [if_neg ?_, if_pos rfl]
              · rw [List.filter_append]
                rw [hhi rfl _ h]
                simp [hkh]
              · simp [hkh]
          · rw [if_neg ?_, if_neg hks]
            · exact hhi rfl s h
            · simp [hks]
      · subst hub
        rw [addFile_eq_add_nohash fs idx p _ hstat hreg hu]
        refine ⟨hu, ?_, ?_⟩
        · refine alApp_bucket_inv
            (fun k v => v ≠ [] ∧ ∀ e ∈ v, EntryOk fs false k e) _ _ _ hsz ?_ ?_
          · refine ⟨by simp, ?_⟩
            intro e he
            simp at he
            subst he
            exact ⟨rfl, c, mm, hstat, rfl, rfl, by simp⟩
          · rintro v ⟨hvne, hv⟩
            refine ⟨by simp, ?_⟩
            intro e he
            rcases List.mem_append.mp he with he | he
            · exact hv e he
            · simp at he
              subst he
              exact ⟨rfl, c, mm, hstat, rfl, rfl, by simp⟩
        · intro ht
          exact absurd ht (by simp)

/-- A fold of `add_file` calls preserves the built-index invariant. -/
theorem foldl_addFile_inv (fs : Fs) (u : Bool) :
    ∀ (ps : List CPath) (idx : FileIndex), BuiltInv fs u idx →
      BuiltInv fs u (ps.foldl (fun i p => (addFile fs i p).2) idx) := by
  intro ps
  induction ps with
  | nil => intro idx h; exact h
  | cons q t ih => intro idx h; exact ih _ (addFile_builtInv fs u idx q h)

/-- Every freshly built index satisfies the built-index invariant. -/
theorem buildIndexFs_inv (fs : Fs) (root : CPath) (u : Bool) (a : Str) (ps : List CPath) :
    BuiltInv fs u (buildIndexFs fs root u a ps) := by
  refine foldl_addFile_inv fs u ps (initIndex root u a) ⟨rfl, ?_, ?_⟩
  · intro kv hkv
    simp [initIndex] at hkv
  · intro _ s h
    simp [initIndex, alGet]


/-- With nonempty buckets, an empty lookup means the key is absent. -/
theorem alMem_false_of_nil_buckets {κ α : Type} [DecidableEq κ] (m : List (κ × List α))
    (k : κ) (hne : ∀ kv ∈ m, kv.2 ≠ []) (hb : alGet m k = []) : alMem m k = false := by
  cases hq : alMem m k
  · rfl
  · obtain ⟨kv, hkv, hk, hg⟩ := alMem_exists m k hq
    rw [hb] at hg
    exact absurd hg.symm (hne kv hkv)

/-- The candidate scan of `_find_hash_duplicates_optimized` over entries that
still exist with their recorded hashes equals filtering the bucket by hash. -/
theorem optimized_hash_filterMap (fs : Fs) (srcHash : Str) :
    ∀ l : List FileEntry,
      (∀ e ∈ l, ∃ ce me, fsStat fs e.path = some (FsNode.file ce me) ∧ e.hash = hashFn ce) →
      ((l.map (fun e => (e.path, e.mtime, e.size))).filterMap (fun c =>
        if ¬ pathExists fs c.1 then some (⟨c.1, c.2.2, c.2.1, []⟩ : FileEntry)
        else
          let ch := calcHash fs c.1
          if ch ≠ [] ∧ ch = srcHash then some ⟨c.1, c.2.2, c.2.1, ch⟩ else none)) =
      l.filter (fun e => e.hash == srcHash) := by
  intro l
  induction l with
  | nil => intro _; rfl
  | cons e t ih =>
    intro hl
    obtain ⟨ce, me, hst, hh⟩ := hl e (by simp)
    have hex : pathExists fs e.path = true := by simp [pathExists, hst]
    have hch : calcHash fs e.path = hashFn ce := by simp [calcHash, hst]
    simp only [List.map_cons, List.filterMap_cons, List.filter_cons]
    rw [if_neg (by simp [hex])]
    simp only [hch]
    by_cases hcs : hashFn ce = srcHash
    · rw [if_pos ⟨by simp [hashFn], hcs⟩]
      have hbeq : (e.hash == srcHash) = true := by simp [hh, hcs]
      rw [hbeq]
      simp only [ih (fun e' he' => hl e' (by simp [he']))]
      congr 1
      rw [← hh]
    · rw [if_neg (fun hc => hcs hc.2)]
      have hbeq : (e.hash == srcHash) = false := by simp [hh, hcs]
      rw [hbeq]
      exact ih (fun e' he' => hl e' (by simp [he']))


/-- On an index built by `add_file` over the same filesystem,
`find_potential_duplicates_optimized` and `find_potential_duplicates` agree
on every query path, in both hashing modes. -/
theorem builtIndex_optimized_eq_single (fs : Fs) (u : Bool) (idx : FileIndex)
    (hinv : BuiltInv fs u idx) (p : CPath) :
    findPotentialDuplicatesOptimized idx fs p = findPotentialDuplicates idx fs p := by
  obtain ⟨hu, hsz, hhi⟩ := hinv
  cases hstat : fsStat fs p with
  | none =>
    unfold findPotentialDuplicatesOptimized findPotentialDuplicates
    rw [hstat]
  | some n =>
    have hL : findPotentialDuplicatesOptimized idx fs p =
        if idx.useHash then findHashDuplicatesOptimized idx fs p ((nodeSize n : Int))
        else findNameDuplicatesOptimized idx p ((nodeSize n : Int)) := by
      unfold findPotentialDuplicatesOptimized
      rw [hstat]
    have hR : findPotentialDuplicates idx fs p =
        if ¬ alMem idx.sizeIndex ((nodeSize n : Int)) then []
        else if idx.useHash then
          (if calcHash fs p = [] then []
           else alGet idx.hashIndex (((nodeSize n : Int)), calcHash fs p))
        else (alGet idx.sizeIndex ((nodeSize n : Int))).filter
          (fun e => pathName e.path == pathName p) := by
      unfold findPotentialDuplicates
      rw [hstat]
    rw [hL, hR]
    cases hu2 : idx.useHash with
    | false =>
      simp only [Bool.false_eq_true, if_false]
      unfold findNameDuplicatesOptimized
      by_cases hm : alMem idx.sizeIndex ((nodeSize n : Int)) = true
      · rw [if_neg (by simp [hm])]
      · have hm' : alMem idx.sizeIndex ((nodeSize n : Int)) = false := by
          cases hq : alMem idx.sizeIndex ((nodeSize n : Int))
          · rfl
          · exact absurd hq hm
        rw [if_pos (by simp [hm']), alGet_eq_nil_of_not_alMem _ _ hm']
        rfl
    | true =>
      rw [if_pos (show (true : Bool) = true from rfl)]
      unfold findHashDuplicatesOptimized
      by_cases hb : alGet idx.sizeIndex ((nodeSize n : Int)) = []
      · have hm' : alMem idx.sizeIndex ((nodeSize n : Int)) = false :=
          alMem_false_of_nil_buckets _ _ (fun kv hkv => (hsz kv hkv).1) hb
        have hc1 : ((alGet idx.sizeIndex ((nodeSize n : Int))).map
            (fun e => (e.path, e.mtime, e.size))).isEmpty = true := by
          rw [hb]
          rfl
        have hc2 : (¬ alMem idx.sizeIndex ((nodeSize n : Int)) = true) := by simp [hm']
        rw [if_pos hc1, if_pos hc2]
      · have hm : alMem idx.sizeIndex ((nodeSize n : Int)) = true :=
          alMem_of_alGet_ne_nil _ _ hb
        have hc1 : ¬ ((alGet idx.sizeIndex ((nodeSize n : Int))).map
            (fun e => (e.path, e.mtime, e.size))).isEmpty = true := by
          simp [hb]
        have hc2 : ¬ (¬ alMem idx.sizeIndex ((nodeSize n : Int)) = true) := by simp [hm]
        rw [if_neg hc1, if_neg hc2,
          if_pos (show (true : Bool) = true from rfl)]
        have huu : u = true := by rw [← hu, hu2]
        by_cases hs0 : calcHash fs p = []
        · rw [if_pos hs0, if_pos hs0]
        · rw [if_neg hs0, if_neg hs0]
          rw [optimized_hash_filterMap fs (calcHash fs p) _ ?_]
          · exact (hhi huu _ _).symm
          · intro e he
            obtain ⟨kv, hkv, hk, he2⟩ := alGet_mem_exists _ _ _ he
            obtain ⟨_, ce, me, hst2, _, _, hhash⟩ := (hsz kv hkv).2 e he2
            refine ⟨ce, me, hst2, ?_⟩
            rw [hhash, if_pos huu]

/-- The bulk fold is the concatenation of per-group match lists. -/
theorem bulk_foldl_aux (fs : Fs) (destIdx : FileIndex) (gs : List (Int × List CPath)) :
    ∀ acc, gs.foldl (fun acc g =>
        let destCands := (alGet destIdx.sizeIndex g.1).map (fun e => (e.path, e.mtime, e.size))
        if destCands.isEmpty then acc
        else acc ++ g.2.filterMap (fun f =>
          let ms := findPotentialDuplicatesOptimized destIdx fs f
          if ms.isEmpty then none else some ⟨f, ms⟩)) acc =
      acc ++ (gs.map (bulkGroupMatches fs destIdx)).flatten := by
  induction gs with
  | nil => intro acc; simp
  | cons g t ih =>
    intro acc
    simp only [List.foldl_cons, List.map_cons, List.flatten_cons]
    rw [ih]
    by_cases hc : ((alGet destIdx.sizeIndex g.1).map
        (fun e => (e.path, e.mtime, e.size))).isEmpty = true
    · rw [if_pos hc]
      unfold bulkGroupMatches
      rw [if_pos hc]
      simp
    · rw [if_neg hc]
      unfold bulkGroupMatches
      rw [if_neg hc]
      simp [List.append_assoc]

/-- `find_all_duplicates_bulk` splits into per-size-group match lists. -/
theorem bulk_eq_flatten (fs : Fs) (srcIdx destIdx : FileIndex) :
    findAllDuplicatesBulk fs srcIdx destIdx =
      ((groupBySize fs (rglobFiles fs srcIdx.rootPath)).map
        (bulkGroupMatches fs destIdx)).flatten := by
  unfold findAllDuplicatesBulk
  rw [bulk_foldl_aux]
  simp

/-- Bucket members after an append come from the old map or are the new element. -/
theorem alApp_bucket_mem {κ α : Type} [DecidableEq κ] (m : List (κ × List α)) (k : κ)
    (x : α) : ∀ g ∈ alApp m k x, ∀ p ∈ g.2,
      (∃ g0 ∈ m, g0.1 = g.1 ∧ p ∈ g0.2) ∨ (p = x ∧ g.1 = k) := by
  induction m with
  | nil =>
    intro g hg p hp
    simp [alApp] at hg
    subst hg
    simp at hp
    exact Or.inr ⟨hp, rfl⟩
  | cons kv0 t ih =>
    obtain ⟨k0, v0⟩ := kv0
    intro g hg p hp
    by_cases h0 : k0 = k
    · subst h0
      simp [alApp] at hg
      rcases hg with hg | hg
      · subst hg
        simp at hp
        rcases hp with hp | hp
        · exact Or.inl ⟨(k0, v0), by simp, rfl, hp⟩
        · exact Or.inr ⟨hp, rfl⟩
      · exact Or.inl ⟨g, by simp [hg], rfl, hp⟩
    · simp [alApp, h0] at hg
      rcases hg with hg | hg
      · subst hg
        exact Or.inl ⟨(k0, v0), by simp, rfl, hp⟩
      · rcases ih g hg p hp with ⟨g0, hg0, hk0, hp0⟩ | hr
        · exact Or.inl ⟨g0, by simp [hg0], hk0, hp0⟩
        · exact Or.inr hr

/-- An append preserves which keyed buckets contain which elements. -/
theorem alApp_bucket_pres {κ α : Type} [DecidableEq κ] (m : List (κ × List α)) (k' : κ)
    (x : α) (k : κ) (p : α) (h : ∃ g ∈ m, g.1 = k ∧ p ∈ g.2) :
    ∃ g ∈ alApp m k' x, g.1 = k ∧ p ∈ g.2 := by
  induction m with
  | nil => obtain ⟨g, hg, _⟩ := h; simp at hg
  | cons kv0 t ih =>
    obtain ⟨k0, v0⟩ := kv0
    obtain ⟨g, hg, hk, hp⟩ := h
    by_cases h0 : k0 = k'
    · subst h0
      rcases List.mem_cons.mp hg with hg | hg
      · subst hg
        exact ⟨(k0, v0 ++ [x]), by simp [alApp], hk, by simp [hp]⟩
      · exact ⟨g, by simp [alApp, hg], hk, hp⟩
    · simp only [alApp, if_neg h0]
      rcases List.mem_cons.mp hg with hg | hg
      · subst hg
        exact ⟨(k0, v0), by simp, hk, hp⟩
      · obtain ⟨g1, hg1, hk1, hp1⟩ := ih ⟨g, hg, hk, hp⟩
        exact ⟨g1, by simp [hg1], hk1, hp1⟩

/-- An append puts the new element in a bucket with its key. -/
theorem alApp_bucket_new {κ α : Type} [DecidableEq κ] (m : List (κ × List α)) (k : κ)
    (x : α) : ∃ g ∈ alApp m k x, g.1 = k ∧ x ∈ g.2 := by
  induction m with
  | nil => exact ⟨(k, [x]), by simp [alApp], rfl, by simp⟩
  | cons kv0 t ih =>
    obtain ⟨k0, v0⟩ := kv0
    by_cases h0 : k0 = k
    · subst h0
      exact ⟨(k0, v0 ++ [x]), by simp [alApp], rfl, by simp⟩
    · obtain ⟨g1, hg1, hk1, hp1⟩ := ih
      exact ⟨g1, by simp [alApp, h0, hg1], hk1, hp1⟩

/-- Soundness of the size grouping: group members come from the input list and
carry the group's size. -/
theorem groupFold_sound (fs : Fs) (Q : CPath → Prop) :
    ∀ (l : List CPath), (∀ p ∈ l, Q p) →
      ∀ (acc : List (Int × List CPath)),
        (∀ g ∈ acc, ∀ p ∈ g.2, Q p ∧ ∃ n, fsStat fs p = some n ∧ (nodeSize n : Int) = g.1) →
        ∀ g ∈ l.foldl (fun acc p =>
            match fsStat fs p with
            | none => acc
            | some n => alApp acc ((nodeSize n : Int)) p) acc,
          ∀ p ∈ g.2, Q p ∧ ∃ n, fsStat fs p = some n ∧ (nodeSize n : Int) = g.1 := by
  intro l
  induction l with
  | nil => intro _ acc hacc g hg; exact hacc g hg
  | cons q t ih =>
    intro hql acc hacc
    simp only [List.foldl_cons]
    cases hq : fsStat fs q with
    | none => exact ih (fun p hp => hql p (by simp [hp])) acc hacc
    | some n =>
      refine ih (fun p hp => hql p (by simp [hp])) _ ?_
      intro g hg p hp
      rcases alApp_bucket_mem acc ((nodeSize n : Int)) q g hg p hp with
        ⟨g0, hg0, hk0, hp0⟩ | ⟨hpq, hgk⟩
      · obtain ⟨hQ, n0, hst0, hsz0⟩ := hacc g0 hg0 p hp0
        exact ⟨hQ, n0, hst0, hk0 ▸ hsz0⟩
      · subst hpq
        exact ⟨hql p (by simp), n, hq, hgk.symm⟩

/-- Completeness of the size grouping: every statable input path lands in the
group of its size. -/
theorem groupFold_complete (fs : Fs) :
    ∀ (l : List CPath) (acc : List (Int × List CPath)) (p : CPath) (n : FsNode),
      fsStat fs p = some n →
      (p ∈ l ∨ ∃ g ∈ acc, g.1 = (nodeSize n : Int) ∧ p ∈ g.2) →
      ∃ g ∈ l.foldl (fun acc p =>
          match fsStat fs p with
          | none => acc
          | some n => alApp acc ((nodeSize n : Int)) p) acc,
        g.1 = (nodeSize n : Int) ∧ p ∈ g.2 := by
  intro l
  induction l with
  | nil =>
    intro acc p n hst h
    rcases h with h | h
    · simp at h
    · exact h
  | cons q t ih =>
    intro acc p n hst h
    simp only [List.foldl_cons]
    rcases h with h | h
    · rcases List.mem_cons.mp h with h | h
      · subst h
        rw [hst]
        exact ih _ p n hst (Or.inr (alApp_bucket_new acc ((nodeSize n : Int)) p))
      · cases hq : fsStat fs q with
        | none => exact ih acc p n hst (Or.inl h)
        | some n' => exact ih _ p n hst (Or.inl h)
    · cases hq : fsStat fs q with
      | none => exact ih acc p n hst (Or.inr h)
      | some n' =>
        exact ih _ p n hst (Or.inr (alApp_bucket_pres acc ((nodeSize n' : Int)) q _ p h))

/-- Every path produced by the source traversal can be statted. -/
theorem rglobFiles_stat (fs : Fs) (root : CPath) (p : CPath)
    (h : p ∈ rglobFiles fs root) : ∃ n, fsStat fs p = some n := by
  unfold rglobFiles at h
  rw [List.mem_filterMap] at h
  obtain ⟨e, he, heq⟩ := h
  by_cases hc : (e.1.take root.length = root ∧ root.length < e.1.length ∧ isRegular e.2 = true)
  · rw [if_pos hc] at heq
    simp only [Option.some.injEq] at heq
    subst heq
    have hs : (fs.find? (fun x => x.1 = e.1)).isSome := by
      rw [List.find?_isSome]
      exact ⟨e, he, by simp⟩
    unfold fsStat
    cases hf : fs.find? (fun x => x.1 = e.1) with
    | none => rw [hf] at hs; simp at hs
    | some x => simp
  · rw [if_neg hc] at heq
    exact absurd heq (by simp)

/-- A single-file lookup with no bucket for the query's size finds nothing. -/
theorem single_nil_of_not_alMem (idx : FileIndex) (fs : Fs) (p : CPath) (n : FsNode)
    (hst : fsStat fs p = some n)
    (hm : alMem idx.sizeIndex ((nodeSize n : Int)) = false) :
    findPotentialDuplicates idx fs p = [] := by
  unfold findPotentialDuplicates
  rw [hst]
  simp [hm]


/-- C5 (amended): for a destination index freshly built by `add_file` over the
same filesystem state used during matching, the bulk matcher reports exactly
the source files (the regular files below the source root) whose single-file
lookup is nonempty, each with exactly its single-file match list — the two
algorithms are equivalent in both hashing modes. (For a stale index whose
entries no longer exist on disk the equivalence fails: the bulk matcher counts
missing candidates as matches with an empty hash, the single-file lookup
consults recorded hash buckets.) -/
theorem c5_bulk_single_equiv_fresh_index (fs : Fs) (srcIdx : FileIndex) (droot : CPath) (u : Bool)
    (algo : Str) (dps : List CPath) (destIdx : FileIndex)
    (hd : destIdx = buildIndexFs fs droot u algo dps) :
    ∀ p M, (⟨p, M⟩ : DuplicateMatch) ∈ findAllDuplicatesBulk fs srcIdx destIdx ↔
      (p ∈ rglobFiles fs srcIdx.rootPath ∧
        M = findPotentialDuplicates destIdx fs p ∧ M ≠ []) := by
  have hinv : BuiltInv fs u destIdx := hd ▸ buildIndexFs_inv fs droot u algo dps
  obtain ⟨huh, hsz, hhi⟩ := hinv
  have hopt : ∀ q, findPotentialDuplicatesOptimized destIdx fs q =
      findPotentialDuplicates destIdx fs q :=
    fun q => builtIndex_optimized_eq_single fs u destIdx ⟨huh, hsz, hhi⟩ q
  intro p M
  rw [bulk_eq_flatten, List.mem_flatten]
  constructor
  · rintro ⟨L, hL, hmem⟩
    rw [List.mem_map] at hL
    obtain ⟨g, hg, hGL⟩ := hL
    subst hGL
    unfold bulkGroupMatches at hmem
    by_cases hc : ((alGet destIdx.sizeIndex g.1).map
        (fun e => (e.path, e.mtime, e.size))).isEmpty = true
    · rw [if_pos hc] at hmem
      simp at hmem
    · rw [if_neg hc] at hmem
      rw [List.mem_filterMap] at hmem
      obtain ⟨f, hf, heq⟩ := hmem
      by_cases hms : (findPotentialDuplicatesOptimized destIdx fs f).isEmpty = true
      · rw [if_pos hms] at heq
        exact absurd heq (by simp)
      · rw [if_neg hms] at heq
        simp only [Option.some.injEq, DuplicateMatch.mk.injEq] at heq
        obtain ⟨hfp, hM⟩ := heq
        subst hfp
        have hsound := groupFold_sound fs (fun q => q ∈ rglobFiles fs srcIdx.rootPath)
          (rglobFiles fs srcIdx.rootPath) (fun q hq => hq) [] (by intro g' hg'; simp at hg')
          g hg f hf
        refine ⟨hsound.1, ?_, ?_⟩
        · rw [← hM, hopt f]
        · rw [← hM]
          intro hx
          rw [hx] at hms
          exact hms rfl
  · rintro ⟨hp, hM, hMne⟩
    obtain ⟨n, hstat⟩ := rglobFiles_stat fs srcIdx.rootPath p hp
    obtain ⟨g, hg, hk, hpin⟩ := groupFold_complete fs (rglobFiles fs srcIdx.rootPath) [] p n
      hstat (Or.inl hp)
    refine ⟨bulkGroupMatches fs destIdx g, List.mem_map.mpr ⟨g, hg, rfl⟩, ?_⟩
    have hbne : alGet destIdx.sizeIndex g.1 ≠ [] := by
      intro hnil
      have hmf : alMem destIdx.sizeIndex g.1 = false :=
        alMem_false_of_nil_buckets _ _ (fun kv hkv => (hsz kv hkv).1) hnil
      have : findPotentialDuplicates destIdx fs p = [] := by
        refine single_nil_of_not_alMem destIdx fs p n hstat ?_
        rw [← hk]
        exact hmf
      exact hMne (hM.trans this)
    unfold bulkGroupMatches
    rw [if_neg (show ¬ ((alGet destIdx.sizeIndex g.1).map
        (fun e => (e.path, e.mtime, e.size))).isEmpty = true by simp [hbne])]
    rw [List.mem_filterMap]
    refine ⟨p, hpin, ?_⟩
    have hopt' : findPotentialDuplicatesOptimized destIdx fs p = M := by
      rw [hopt p, ← hM]
    rw [if_neg (show ¬ (findPotentialDuplicatesOptimized destIdx fs p).isEmpty = true by
      rw [hopt']
      simpa using hMne)]
    rw [hopt']

/-- Witness for the amended C5 on a concrete one-file destination index. -/
theorem c5_bulk_single_equiv_fresh_index_witness :
    ((⟨exAPath, findPotentialDuplicates exIdx9Hash exFs9 exAPath⟩ : DuplicateMatch) ∈
        findAllDuplicatesBulk exFs9 exSrcC5 exIdx9Hash ↔
      (exAPath ∈ rglobFiles exFs9 exSrcC5.rootPath ∧
        findPotentialDuplicates exIdx9Hash exFs9 exAPath =
          findPotentialDuplicates exIdx9Hash exFs9 exAPath ∧
        findPotentialDuplicates exIdx9Hash exFs9 exAPath ≠ [])) :=
  c5_bulk_single_equiv_fresh_index exFs9 exSrcC5 [[100]] true exMd5 [[[100], strBytes "b.txt"]]
    exIdx9Hash (by decide) exAPath (findPotentialDuplicates exIdx9Hash exFs9 exAPath)

/-- Reading a NUL-terminated string consumes bytes, never adds them. -/
theorem readStrGo_rest_len (l : List Nat) : (readStrGo l).2.length ≤ l.length := by
  induction l with
  | nil => simp [readStrGo]
  | cons b t ih =>
    by_cases hb : b = 0
    · simp [readStrGo, hb]
    · simp only [readStrGo, if_neg hb]
      simpa using Nat.le_succ_of_le ih

/-- For versions above 2 the magic/version parse splits into the magic word
read, the magic check, and the explicit 2-byte version read. -/
theorem parseMagicVersion_decomp (s : List Nat) (v : Int) (r : List Nat)
    (h : parseMagicVersion s = some (v, r)) (h3 : 3 ≤ v) :
    ∃ m r1, readU 4 s = some (m, r1) ∧ magicOk m ∧ readI 2 r1 = some (v, r) := by
  unfold parseMagicVersion at h
  rw [parseBind_apply] at h
  cases hm : readU 4 s with
  | none => rw [hm] at h; exact absurd h (by simp)
  | some a =>
    obtain ⟨m, r1⟩ := a
    rw [hm] at h
    simp only [parseBind_apply, pguard_apply] at h
    by_cases hok : (0 < m ∧ m % ulModus = ulMagicBase)
    · rw [if_pos hok] at h
      by_cases hq : 2 < ((m / ulModus : Nat) : Int)
      · rw [if_pos hq] at h
        exact ⟨m, r1, rfl, hok, h⟩
      · rw [if_neg hq] at h
        simp only [parsePure_apply, Option.some.injEq, Prod.mk.injEq] at h
        omega
    · rw [if_neg hok] at h
      exact absurd h (by simp)


set_option maxHeartbeats 1000000

/-- C6 (amended): `get_index_info` hard-codes the full version-8 layout
(root path, comment, free-size and archive reads are unconditional), so it
stays aligned with the full decoder exactly on streams whose version is 6, 7
or 8: there the directory-0 file count and total size it extracts equal the
pair the full decoder reads from the same byte stream. For versions 5 and
below the offsets desynchronize (see the version-5 counterexample). -/
theorem c6_catalog_matches_decoder_v6_to_v8 (s : List Nat) (f64 : List Nat → Int)
    (v : Int) (ct : Int × Int) (hv : cafVersionOf s = some v) (h6 : 6 ≤ v)
    (hl : loadFromCafDir0 s f64 = some ct) :
    (getIndexInfo s f64).map (fun i => (i.fileCount, i.totalSize)) = some ct := by
  unfold cafVersionOf at hv
  cases hmv : parseMagicVersion s with
  | none => rw [hmv] at hv; exact absurd hv (by simp)
  | some a =>
    obtain ⟨v0, r⟩ := a
    rw [hmv] at hv
    simp at hv
    subst hv
    obtain ⟨m, r1, hm, hok, hr2⟩ := parseMagicVersion_decomp s v0 r hmv (by omega)
    unfold loadFromCafDir0 at hl
    cases hpt : parseCafThroughDirs s with
    | none => rw [hpt] at hl; exact absurd hl (by simp)
    | some b =>
      obtain ⟨⟨v1, dev, di⟩, rest⟩ := b
      rw [hpt] at hl
      cases di with
      | nil => exact absurd hl (by simp)
      | cons d0 dd =>
        simp only [Option.some.injEq] at hl
        -- dissect the header parse
        unfold parseCafThroughDirs at hpt
        have h8 : v0 ≤ saveVersion := by
          by_contra h8
          simp only [parseBind_apply, hmv, pguard_apply, if_neg h8] at hpt
          exact absurd hpt (by simp)
        have h2 : (2 : Int) ≤ v0 := by omega
        have h4 : (4 : Int) ≤ v0 := by omega
        have h1b : (1 : Int) ≤ v0 := by omega
        have h3 : (3 : Int) ≤ v0 := by omega
        simp only [parseBind_apply, hmv, pguard_apply, skipB_apply, readStrP_apply,
          parsePure_apply, parseDirBlock, h2, h4, h1b, h6, h8, if_true] at hpt
        cases hdc : readI 4
            (List.drop 2 (List.drop 4 (readStrGo (List.drop 4
              (readStrGo (readStrGo (readStrGo (List.drop 4 r)).2).2).2)).2)) with
        | none => simp only [hdc] at hpt; exact absurd hpt (by simp)
        | some dcp =>
          obtain ⟨dc, r9⟩ := dcp
          simp only [hdc] at hpt
          cases hk : dc.toNat with
          | zero =>
            simp only [hk, pcountFrom, parsePure_apply] at hpt
            exact absurd hpt (by simp)
          | succ k =>
            simp only [hk, pcountFrom, parseDirEntry, parseBind_apply, readStrP_apply,
              parsePure_apply, h3, eq_self_iff_true, true_or, if_true] at hpt
            cases hc0 : readI 4 (readStrGo r9).2 with
            | none => simp only [hc0] at hpt; exact absurd hpt (by simp)
            | some c0p =>
              obtain ⟨c0, r11⟩ := c0p
              simp only [hc0] at hpt
              cases hbs : readBytes 8 r11 with
              | none => simp only [hbs] at hpt; exact absurd hpt (by simp)
              | some bsp =>
                obtain ⟨bs, r12⟩ := bsp
                simp only [hbs] at hpt
                cases hpc : pcountFrom (parseDirEntry v0) (0 + 1) k r12 with
                | none => simp only [hpc] at hpt; exact absurd hpt (by simp)
                | some dip =>
                  obtain ⟨dd2, r13⟩ := dip
                  simp only [hpc] at hpt
                  simp only [Option.some.injEq, Prod.mk.injEq] at hpt
                  obtain ⟨⟨hv1, hdev, hcons⟩, hrest⟩ := hpt
                  rw [List.cons.injEq] at hcons
                  have hxlen : ¬ ((List.drop 2 (List.drop 4 (readStrGo (List.drop 4
                      (readStrGo (readStrGo (readStrGo (List.drop 4 r)).2).2).2)).2)).length < 4) := by
                    intro hlt
                    simp only [readI, readBytes, parseBind_apply, if_pos hlt] at hdc
                    exact absurd hdc (by simp)
                  have hr4 : ¬ (r.length < 4) := by
                    have c1 := readStrGo_rest_len (List.drop 4 r)
                    have c2 := readStrGo_rest_len (readStrGo (List.drop 4 r)).2
                    have c3 := readStrGo_rest_len (readStrGo (readStrGo (List.drop 4 r)).2).2
                    have c4 := readStrGo_rest_len (List.drop 4
                      (readStrGo (readStrGo (readStrGo (List.drop 4 r)).2).2).2)
                    simp only [List.length_drop] at hxlen c1 c2 c3 c4 ⊢
                    omega
                  have hokc : (0 < m ∧ m % ulModus = ulMagicBase) := hok
                  have hdcpos : (0 : Int) < dc := by omega
                  unfold getIndexInfo
                  simp only [parseBind_apply, hm, pguard_apply, hokc, and_self, if_true, hr2]
                  simp only [readU, readBytes, parseBind_apply, parsePure_apply, hr4,
                    if_false, skipB_apply, readStrP_apply, hdc, hdcpos, hc0, hbs,
                    Option.map_some]
                  rw [← hl, ← hcons.1]
                  rw [if_pos trivial]
                  simp only [parseBind_apply, readStrP_apply, hc0, hbs, parsePure_apply,
                    Option.map_some]
                  rfl


/-- Witness for the amended C6 at the concrete version-8 stream `exStreamV8`. -/
theorem c6_catalog_matches_decoder_v6_to_v8_witness :
    (cafVersionOf exStreamV8 = some 8 ∧ (6 : Int) ≤ 8 ∧
      loadFromCafDir0 exStreamV8 exF64Zero = some (1, 0)) ∧
    (getIndexInfo exStreamV8 exF64Zero).map (fun i => (i.fileCount, i.totalSize)) =
      some (1, 0) :=
  ⟨⟨by decide, by decide, by decide⟩,
    c6_catalog_matches_decoder_v6_to_v8 exStreamV8 exF64Zero 8 (1, 0)
      (by decide) (by decide) (by decide)⟩

end Catfish
